import Mathlib

/-!
# handy: the poller (poller.cc) and the logging front end (logging.h)

A shallow embedding of `PollerEpoll` / `PollerKqueue` (src/handy/poller.cc) and of the
`handy_hlog` family of macros with `Logger::setLogLevel` / `adjustLogLevel`
(src/handy/logging.h).

Conventions of the embedding.

* A `Channel *` is a natural number (`Chan`); the `NULL` pointer stored in a readiness
  record is `none`.
* The two back ends have the same code up to the layout of a readiness record and the
  if/else chain that picks a callback; both are written once, over the record payload
  `P` and the selection function `sel`, and instantiated in the namespaces `PollerEpoll`
  and `PollerKqueue`.
* System calls are not part of the repository.  The value a system call returns is an
  argument of the embedded function (`r` for `epoll_ctl` / `kevent` with a change list,
  a `WaitResult` for `epoll_wait` / `kevent` with an event list).  A model of the
  multiplexer's registration table is layered on top for the registration invariant.
* A channel object is not part of the repository.  What the poller reads through a
  `Channel *` at dispatch, `readEnabled()` and `writeEnabled()`, is the field `chans` of
  the state, read at the moment of the call.
* A channel callback (`handleRead`, `handleWrite`) is user code.  What it does is a list
  of steps (`Op`): calls of `addChannel`, `updateChannel` and `removeChannel`, and changes
  of the interest flags of a channel object.  The list may depend on the whole state; a
  callback does not call `loop_once` itself.
* A fatal diagnostic ends the process: the flag `fatal` is set and nothing more runs.
* `calls` is the log of callbacks invoked; `scans` is a ghost log of the value of
  `lastActive_` at every entry of `removeChannel`.
-/

namespace handy

/-! ## logging.h -/

namespace Logger

/-- The enumerators of `enum LogLevel`, as their integer values. -/
def LFATAL : Int := 0
def LERROR : Int := 1
def LUERR : Int := 2
def LWARN : Int := 3
def LINFO : Int := 4
def LDEBUG : Int := 5
def LTRACE : Int := 6
def LALL : Int := 7

/-- `void setLogLevel(LogLevel level) { level_ = std::min(LALL, std::max(LFATAL, level)); }`
The result is the new value of `level_`. -/
def setLogLevel (level : Int) : Int := min LALL (max LFATAL level)

/-- `void adjustLogLevel(int adjust) { setLogLevel(LogLevel(level_ + adjust)); }`
`conv` is the conversion `LogLevel(...)` of the integer sum to the enumeration type,
whose result for a value outside the enumerators is left to the compiler. -/
def adjustLogLevel (conv : Int → Int) (level_ : Int) (adjust : Int) : Int :=
  setLogLevel (conv (level_ + adjust))

end Logger

/-- `handy_hlog(level, ...)`: the list of levels with which `logv` is called, given the
logger's current level (`getLogLevel()`). -/
def handy_hlog (level : Int) (getLogLevel : Int) : List Int :=
  if level ≤ getLogLevel then [level] else []

/-- `handy_fatal(...)` -/
def handy_fatal (getLogLevel : Int) : List Int := handy_hlog Logger.LFATAL getLogLevel

/-- `handy_fatalif(b, ...)` -/
def handy_fatalif (b : Bool) (getLogLevel : Int) : List Int :=
  if b then handy_hlog Logger.LFATAL getLogLevel else []

/-- `handy_check(b, ...)` -/
def handy_check (b : Bool) (getLogLevel : Int) : List Int :=
  if b then handy_hlog Logger.LFATAL getLogLevel else []

/-! ## poller.cc: data -/

/-- A `Channel *` value (never `NULL`). -/
abbrev Chan := Nat

/-- A callback the poller invokes on a channel. -/
inductive Call where
  | handleRead (ch : Chan)
  | handleWrite (ch : Chan)
  | close (ch : Chan)
  deriving DecidableEq, Repr

/-- The branch taken by the if/else chain of the dispatch loop for a record whose
channel pointer is not `NULL`. -/
inductive Sel where
  | read
  | write
  | fatal
  deriving DecidableEq, Repr

/-- Which of the two callbacks runs. -/
inductive Kind where
  | read
  | write
  deriving DecidableEq, Repr

/-- The log entry of the callback of kind `k` on channel `ch`. -/
def Call.ofKind (k : Kind) (ch : Chan) : Call :=
  match k with
  | .read => Call.handleRead ch
  | .write => Call.handleWrite ch

/-- What the dispatch loop reads through a `Channel *`: `readEnabled()` and
`writeEnabled()` of the channel object. -/
structure Interest where
  readEnabled : Bool
  writeEnabled : Bool
  deriving DecidableEq, Repr

/-- A readiness record: `struct epoll_event` (`info` is `events`, `ptr` is `data.ptr`) or
`struct kevent` (`info` is `flags`, `ptr` is `udata`). -/
structure Ready (P : Type) where
  info : P
  ptr : Option Chan

/-- A step of user code: a poller call, with the value the registration system call
returns to it, or a change of the interest flags of a channel object (what
`Channel::enableRead` and its siblings do before they call `updateChannel`). -/
inductive Op where
  | add (ch : Chan) (r : Int)
  | update (ch : Chan) (r : Int)
  | remove (ch : Chan)
  | setInterest (ch : Chan) (readEnabled writeEnabled : Bool)
  deriving DecidableEq, Repr

/-- The poller object (`liveChannels_`, `activeEvs_`, `lastActive_`) together with the
interest flags of the channel objects as they stand, the log of callbacks invoked, the
ghost log of cursor values seen by `removeChannel`, and the flag recording that a fatal
diagnostic was emitted. -/
structure World (P : Type) where
  liveChannels : Finset Chan
  activeEvs : Nat → Ready P
  lastActive : Int
  chans : Chan → Interest
  calls : List Call
  scans : List Int
  fatal : Bool

/-- User code of the callbacks: the steps made by the callback of kind `k` of channel
`ch`, when invoked in state `w`. -/
abbrev Handler (P : Type) := World P → Chan → Kind → List Op

/-- What the wait call (`epoll_wait`, or `kevent` with an event list) hands back: the
return value, `errno`, and the records it stored at positions `0 .. evs.length - 1` of
`activeEvs_`. -/
structure WaitResult (P : Type) where
  ret : Int
  errno : Int
  evs : List (Ready P)

/-- `EINTR` of `<errno.h>`. -/
def EINTR : Int := 4

/-- Modelled from the spec: the constructor of `PollerBase` (poller.h, not among the
sources) leaves the cursor `lastActive_` at -1.  The live set is empty; the content of
`activeEvs_` is whatever the memory holds (`buf`), and the channel objects are whatever
the layer above made them (`chans`). -/
def fresh {P : Type} (buf : Nat → Ready P) (chans : Chan → Interest) : World P :=
  { liveChannels := ∅, activeEvs := buf, lastActive := -1, chans := chans, calls := [],
    scans := [], fatal := false }

/-! ## poller.cc: operations shared by both back ends -/

section generic
variable {P : Type}

/-- Modelled from the spec: `handy_fatalif(b, ...)` / `handy_fatal(...)` inside the
poller.  `Logger::logv` is not among the sources; a fatal-severity emission terminates
the process, recorded by the flag `fatal`, after which nothing more is executed. -/
def fatalIf (b : Bool) (w : World P) : World P :=
  if b then { w with fatal := true } else w

/-- `addChannel(ch)`, where `r` is what `epoll_ctl(.., EPOLL_CTL_ADD, ..)` (or `kevent`)
returned: `handy_fatalif(r, ..); liveChannels_.insert(ch);` -/
def addChannel (r : Int) (ch : Chan) (w : World P) : World P :=
  if r ≠ 0 then fatalIf true w
  else { w with liveChannels := insert ch w.liveChannels }

/-- `updateChannel(ch)`, where `r` is what `epoll_ctl(.., EPOLL_CTL_MOD, ..)` (or
`kevent`) returned: `handy_fatalif(r, ..);` -/
def updateChannel (r : Int) (_ch : Chan) (w : World P) : World P :=
  if r ≠ 0 then fatalIf true w else w

/-- The loop of `removeChannel`:
`for (int i = lastActive_; i >= 0; i--) if (ch == activeEvs_[i].ptr) { activeEvs_[i].ptr = NULL; break; }`
started at `i`. -/
def scanClear (ch : Chan) (buf : Nat → Ready P) : Nat → (Nat → Ready P)
  | 0 =>
    if (buf 0).ptr = some ch then Function.update buf 0 { buf 0 with ptr := none } else buf
  | i + 1 =>
    if (buf (i + 1)).ptr = some ch then
      Function.update buf (i + 1) { buf (i + 1) with ptr := none }
    else scanClear ch buf i

/-- `removeChannel(ch)`: `liveChannels_.erase(ch);` then the scan from `lastActive_`. -/
def removeChannel (ch : Chan) (w : World P) : World P :=
  { w with
    liveChannels := w.liveChannels.erase ch
    activeEvs := if 0 ≤ w.lastActive then scanClear ch w.activeEvs w.lastActive.toNat
                 else w.activeEvs
    scans := w.scans ++ [w.lastActive] }

/-- One step of user code. -/
def applyOp : Op → World P → World P
  | .add ch r, w => addChannel r ch w
  | .update ch r, w => updateChannel r ch w
  | .remove ch, w => removeChannel ch w
  | .setInterest ch r x, w => { w with chans := Function.update w.chans ch ⟨r, x⟩ }

/-- The steps of one callback, in order; a fatal diagnostic ends the process. -/
def runOps : List Op → World P → World P
  | [], w => w
  | op :: ops, w => if w.fatal then w else runOps ops (applyOp op w)

/-- `ch->handleRead()` / `ch->handleWrite()`: the call is logged, then the user code
runs. -/
def invoke (h : Handler P) (ch : Chan) (k : Kind) (w : World P) : World P :=
  let w1 := { w with calls := w.calls ++ [Call.ofKind k ch] }
  runOps (h w1 ch k) w1

/-- The body of the dispatch loop at `i = lastActive_`:
`ch = activeEvs_[i].ptr; if (ch) { if (..) ch->handleRead(); else if (..) ch->handleWrite(); else handy_fatal(..); }`
The if/else chain `sel` sees the interest flags of the channel objects as they are now. -/
def dispatch (sel : (Chan → Interest) → P → Chan → Sel) (h : Handler P) (w : World P) :
    World P :=
  let ev := w.activeEvs w.lastActive.toNat
  match ev.ptr with
  | none => w
  | some ch =>
    match sel w.chans ev.info ch with
    | .read => invoke h ch .read w
    | .write => invoke h ch .write w
    | .fatal => fatalIf true w

/-- `while (--lastActive_ >= 0) { body }`, with fuel; `none` is fuel exhausted. -/
def dispatchLoop (sel : (Chan → Interest) → P → Chan → Sel) (h : Handler P) :
    Nat → World P → Option (World P)
  | 0, _ => none
  | fuel + 1, w =>
    if w.fatal then some w
    else
      let w1 := { w with lastActive := w.lastActive - 1 }
      if 0 ≤ w1.lastActive then dispatchLoop sel h fuel (dispatch sel h w1) else some w1

/-- The records stored by the wait call overwrite the front of `activeEvs_`. -/
def writeBatch (evs : List (Ready P)) (buf : Nat → Ready P) : Nat → Ready P :=
  fun j => if hj : j < evs.length then evs.get ⟨j, hj⟩ else buf j

/-- `loop_once(waitMs)`:
`lastActive_ = wait(.., activeEvs_, kMaxEvents, ..); handy_fatalif(lastActive_ == -1 && errno != EINTR, ..); while (--lastActive_ >= 0) { .. }`
The fuel handed to the loop is enough for every state (`loop_once_total`). -/
def loop_once (sel : (Chan → Interest) → P → Chan → Sel) (h : Handler P)
    (wr : WaitResult P) (w : World P) : Option (World P) :=
  let w1 := { w with activeEvs := writeBatch wr.evs w.activeEvs, lastActive := wr.ret }
  let w2 := fatalIf (decide (wr.ret = -1 ∧ wr.errno ≠ EINTR)) w1
  dispatchLoop sel h (wr.ret.toNat + 1) w2

/-- The loop of the destructor, `while (liveChannels_.size()) (*liveChannels_.begin())->close();`,
with fuel; `close` is the effect of `Channel::close()` on the poller.  The result is the
state in which `::close(fd_)` releases the multiplexing handle. -/
def destroyLoop (close : Chan → World P → World P) : Nat → World P → Option (World P)
  | 0, _ => none
  | fuel + 1, w =>
    if w.fatal then some w
    else if hne : w.liveChannels.Nonempty then
      let ch := w.liveChannels.min' hne
      destroyLoop close fuel (close ch { w with calls := w.calls ++ [Call.close ch] })
    else some w

/-- A call of the poller's interface by its owner (the event loop driver), or a change
of the interest flags of a channel object by the owner. -/
inductive Cmd (P : Type) where
  | add (ch : Chan) (r : Int)
  | update (ch : Chan) (r : Int)
  | remove (ch : Chan)
  | setInterest (ch : Chan) (readEnabled writeEnabled : Bool)
  | loop (h : Handler P) (wr : WaitResult P)

/-- One call by the owner; nothing runs once the process is terminated. -/
def step (sel : (Chan → Interest) → P → Chan → Sel) (c : Cmd P) (w : World P) :
    Option (World P) :=
  if w.fatal then some w
  else
    match c with
    | .add ch r => some (addChannel r ch w)
    | .update ch r => some (updateChannel r ch w)
    | .remove ch => some (removeChannel ch w)
    | .setInterest ch r x => some (applyOp (Op.setInterest ch r x) w)
    | .loop h wr => loop_once sel h wr w

/-- A sequence of calls by the owner. -/
def run (sel : (Chan → Interest) → P → Chan → Sel) :
    List (Cmd P) → World P → Option (World P)
  | [], w => some w
  | c :: cs, w =>
    match step sel c w with
    | none => none
    | some w1 => run sel cs w1

end generic

/-! ## poller.cc: the epoll back end -/

namespace PollerEpoll

/-- `POLLIN`, `POLLOUT`, `POLLERR` of `<poll.h>`; `kReadEvent = POLLIN` and
`kWriteEvent = POLLOUT` (poller.h). -/
def POLLIN : Nat := 1
def POLLOUT : Nat := 4
def POLLERR : Nat := 8
def kReadEvent : Nat := POLLIN
def kWriteEvent : Nat := POLLOUT

/-- The if/else chain of `PollerEpoll::loop_once` on the event word:
`if (events & (kReadEvent | POLLERR)) read; else if (events & kWriteEvent) write; else fatal`.
It reads nothing through the channel pointer. -/
def sel (_chans : Chan → Interest) (events : Nat) (_ch : Chan) : Sel :=
  if events &&& (kReadEvent ||| POLLERR) ≠ 0 then .read
  else if events &&& kWriteEvent ≠ 0 then .write
  else .fatal

/-- `PollerEpoll::loop_once` -/
def loop_once (h : Handler Nat) (wr : WaitResult Nat) (w : World Nat) : Option (World Nat) :=
  handy.loop_once sel h wr w

end PollerEpoll

/-! ## poller.cc: the kqueue back end -/

namespace PollerKqueue

/-- `EV_EOF` of `<sys/event.h>`. -/
def EV_EOF : Nat := 0x8000

/-- The if/else chain of `PollerKqueue::loop_once` on the record's `flags`:
`if (!(flags & EV_EOF) && ch->writeEnabled()) write; else if ((flags & EV_EOF) || ch->readEnabled()) read; else fatal`.
`chans` is the state of the channel objects at the moment the chain is evaluated. -/
def sel (chans : Chan → Interest) (flags : Nat) (ch : Chan) : Sel :=
  if ¬ (flags &&& EV_EOF ≠ 0) ∧ (chans ch).writeEnabled = true then .write
  else if flags &&& EV_EOF ≠ 0 ∨ (chans ch).readEnabled = true then .read
  else .fatal

/-- `PollerKqueue::loop_once` -/
def loop_once (h : Handler Nat) (wr : WaitResult Nat) (w : World Nat) :
    Option (World Nat) :=
  handy.loop_once sel h wr w

end PollerKqueue

/-! ## The registration table of the multiplexer

The kernel is not part of the repository.  Its registration table is modelled as explicit
state that changes only through the registration requests the poller issues, with the
outcomes documented for `epoll_ctl(2)` and `kevent(2)`. -/

/-- A call of the registration interface by the owner of the poller: the channel, and
for `add` / `update` the values of `readEnabled()` and `writeEnabled()` of the channel
object at the time of the call. -/
inductive RegCmd where
  | add (ch : Chan) (readEnabled writeEnabled : Bool)
  | update (ch : Chan) (readEnabled writeEnabled : Bool)
  | remove (ch : Chan)
  deriving DecidableEq, Repr

/-- Every `updateChannel` of the sequence is on a channel that is in the live set `live`
at the time of the call. -/
def updatesLive : Finset Chan → List RegCmd → Bool
  | _, [] => true
  | live, .add ch _ _ :: cs => updatesLive (insert ch live) cs
  | live, .update ch _ _ :: cs => decide (ch ∈ live) && updatesLive live cs
  | live, .remove ch :: cs => updatesLive (live.erase ch) cs

/-- The call has read or write interest enabled (`removeChannel` reads neither). -/
def RegCmd.interested : RegCmd → Bool
  | .add _ r w => r || w
  | .update _ r w => r || w
  | .remove _ => true

/-- The call is not a `removeChannel`. -/
def RegCmd.keeps : RegCmd → Bool
  | .remove _ => false
  | _ => true

namespace PollerEpoll

/-- `EPOLL_CTL_ADD` and `EPOLL_CTL_MOD`. -/
inductive CtlOp where
  | ADD
  | MOD
  deriving DecidableEq, Repr

/-- The poller together with the interest list of its epoll instance, as the set of
registered descriptors. -/
structure Sys where
  reg : Finset Int
  poller : World Nat

/-- `epoll_ctl(fd_, op, fd, &ev)` on the interest list: the new list and the return
value.  `EPOLL_CTL_ADD` of a registered descriptor fails (`EEXIST`), `EPOLL_CTL_MOD` of
an unregistered one fails (`ENOENT`). -/
def epoll_ctl (reg : Finset Int) (op : CtlOp) (fd : Int) : Finset Int × Int :=
  match op with
  | .ADD => if fd ∈ reg then (reg, -1) else (insert fd reg, 0)
  | .MOD => if fd ∈ reg then (reg, 0) else (reg, -1)

/-- `PollerEpoll::addChannel(ch)` against the kernel: `r = epoll_ctl(fd_, EPOLL_CTL_ADD, ch->fd(), &ev)`. -/
def addChannelSys (fdOf : Chan → Int) (ch : Chan) (s : Sys) : Sys :=
  { reg := (epoll_ctl s.reg .ADD (fdOf ch)).1
    poller := addChannel (epoll_ctl s.reg .ADD (fdOf ch)).2 ch s.poller }

/-- `PollerEpoll::updateChannel(ch)` against the kernel: `r = epoll_ctl(fd_, EPOLL_CTL_MOD, ch->fd(), &ev)`. -/
def updateChannelSys (fdOf : Chan → Int) (ch : Chan) (s : Sys) : Sys :=
  { reg := (epoll_ctl s.reg .MOD (fdOf ch)).1
    poller := updateChannel (epoll_ctl s.reg .MOD (fdOf ch)).2 ch s.poller }

/-- `PollerEpoll::removeChannel(ch)` against the kernel: it issues no `epoll_ctl`. -/
def removeChannelSys (ch : Chan) (s : Sys) : Sys :=
  { reg := s.reg, poller := removeChannel ch s.poller }

/-- One call by the owner; nothing runs once the process is terminated. -/
def stepReg (fdOf : Chan → Int) (c : RegCmd) (s : Sys) : Sys :=
  if s.poller.fatal then s
  else
    match c with
    | .add ch _ _ => addChannelSys fdOf ch s
    | .update ch _ _ => updateChannelSys fdOf ch s
    | .remove ch => removeChannelSys ch s

/-- A sequence of calls by the owner. -/
def runReg (fdOf : Chan → Int) : List RegCmd → Sys → Sys
  | [], s => s
  | c :: cs, s => runReg fdOf cs (stepReg fdOf c s)

/-- A fresh poller on a fresh epoll instance. -/
def init (buf : Nat → Ready Nat) (chans : Chan → Interest) : Sys :=
  { reg := ∅, poller := fresh buf chans }

end PollerEpoll

namespace PollerKqueue

/-- `EVFILT_READ` and `EVFILT_WRITE`. -/
inductive Filter where
  | read
  | write
  deriving DecidableEq, Repr

/-- One entry of a change list, as set up by `EV_SET(&ev, fd, filter, flags, 0, 0, ch)`:
`enable` is true for `EV_ADD | EV_ENABLE` and false for `EV_DELETE`. -/
structure Change where
  ident : Int
  filter : Filter
  enable : Bool
  deriving DecidableEq, Repr

/-- The poller together with the registrations of its kqueue, one per descriptor and
filter. -/
structure Sys where
  reg : Finset (Int × Filter)
  poller : World Nat

/-- `kevent(fd_, changes, n, NULL, 0, &now)` on the registrations: the new registrations
and the return value.  The changes are applied in order; `EV_ADD` registers the filter
(again, when it is registered already); `EV_DELETE` of a filter that is not registered
fails (`ENOENT`) and, there being no event list to report it in, ends the call with -1. -/
def kevent (reg : Finset (Int × Filter)) : List Change → Finset (Int × Filter) × Int
  | [] => (reg, 0)
  | c :: cs =>
    if c.enable then kevent (insert (c.ident, c.filter) reg) cs
    else if (c.ident, c.filter) ∈ reg then kevent (reg.erase (c.ident, c.filter)) cs
    else (reg, -1)

/-- The change list of `PollerKqueue::addChannel`: one entry for each enabled direction. -/
def addChanges (fd : Int) (readEnabled writeEnabled : Bool) : List Change :=
  (if readEnabled then [⟨fd, .read, true⟩] else []) ++
  (if writeEnabled then [⟨fd, .write, true⟩] else [])

/-- The change list of `PollerKqueue::updateChannel`: for each direction `EV_ADD | EV_ENABLE`
when enabled and `EV_DELETE` when not. -/
def updateChanges (fd : Int) (readEnabled writeEnabled : Bool) : List Change :=
  [⟨fd, .read, readEnabled⟩, ⟨fd, .write, writeEnabled⟩]

/-- `PollerKqueue::addChannel(ch)` against the kernel. -/
def addChannelSys (fdOf : Chan → Int) (ch : Chan) (r w : Bool) (s : Sys) : Sys :=
  { reg := (kevent s.reg (addChanges (fdOf ch) r w)).1
    poller := addChannel (kevent s.reg (addChanges (fdOf ch) r w)).2 ch s.poller }

/-- `PollerKqueue::updateChannel(ch)` against the kernel. -/
def updateChannelSys (fdOf : Chan → Int) (ch : Chan) (r w : Bool) (s : Sys) : Sys :=
  { reg := (kevent s.reg (updateChanges (fdOf ch) r w)).1
    poller := updateChannel (kevent s.reg (updateChanges (fdOf ch) r w)).2 ch s.poller }

/-- `PollerKqueue::removeChannel(ch)` against the kernel: it issues no `kevent`. -/
def removeChannelSys (ch : Chan) (s : Sys) : Sys :=
  { reg := s.reg, poller := removeChannel ch s.poller }

/-- One call by the owner; nothing runs once the process is terminated. -/
def stepReg (fdOf : Chan → Int) (c : RegCmd) (s : Sys) : Sys :=
  if s.poller.fatal then s
  else
    match c with
    | .add ch r w => addChannelSys fdOf ch r w s
    | .update ch r w => updateChannelSys fdOf ch r w s
    | .remove ch => removeChannelSys ch s

/-- A sequence of calls by the owner. -/
def runReg (fdOf : Chan → Int) : List RegCmd → Sys → Sys
  | [], s => s
  | c :: cs, s => runReg fdOf cs (stepReg fdOf c s)

/-- A fresh poller on a fresh kqueue. -/
def init (buf : Nat → Ready Nat) (chans : Chan → Interest) : Sys :=
  { reg := ∅, poller := fresh buf chans }

end PollerKqueue

/-! ## Basic facts about the shared operations -/

section lemmas
variable {P : Type}

theorem applyOp_calls (op : Op) (w : World P) : (applyOp op w).calls = w.calls := by
  cases op <;> simp only [applyOp, addChannel, updateChannel, removeChannel, fatalIf] <;>
    split <;> rfl

theorem applyOp_lastActive (op : Op) (w : World P) :
    (applyOp op w).lastActive = w.lastActive := by
  cases op <;> simp only [applyOp, addChannel, updateChannel, removeChannel, fatalIf] <;>
    split <;> rfl

theorem runOps_calls (ops : List Op) (w : World P) : (runOps ops w).calls = w.calls := by
  induction ops generalizing w with
  | nil => rfl
  | cons op ops ih =>
    simp only [runOps]
    split
    · rfl
    · rw [ih, applyOp_calls]

theorem runOps_lastActive (ops : List Op) (w : World P) :
    (runOps ops w).lastActive = w.lastActive := by
  induction ops generalizing w with
  | nil => rfl
  | cons op ops ih =>
    simp only [runOps]
    split
    · rfl
    · rw [ih, applyOp_lastActive]

theorem invoke_calls (h : Handler P) (ch : Chan) (k : Kind) (w : World P) :
    (invoke h ch k w).calls = w.calls ++ [Call.ofKind k ch] := by
  simp only [invoke, runOps_calls]

theorem invoke_lastActive (h : Handler P) (ch : Chan) (k : Kind) (w : World P) :
    (invoke h ch k w).lastActive = w.lastActive := by
  simp only [invoke, runOps_lastActive]

theorem dispatch_lastActive (sel : (Chan → Interest) → P → Chan → Sel) (h : Handler P) (w : World P) :
    (dispatch sel h w).lastActive = w.lastActive := by
  cases hp : (w.activeEvs w.lastActive.toNat).ptr with
  | none => simp only [dispatch, hp]
  | some ch =>
    cases hs : sel w.chans (w.activeEvs w.lastActive.toNat).info ch with
    | read => simp only [dispatch, hp, hs, invoke_lastActive]
    | write => simp only [dispatch, hp, hs, invoke_lastActive]
    | fatal => simp only [dispatch, hp, hs, fatalIf, if_true]

theorem dispatch_of_read (sel : (Chan → Interest) → P → Chan → Sel) (h : Handler P) (w : World P) (ch : Chan)
    (hp : (w.activeEvs w.lastActive.toNat).ptr = some ch)
    (hs : sel w.chans (w.activeEvs w.lastActive.toNat).info ch = .read) :
    dispatch sel h w = invoke h ch .read w := by
  simp only [dispatch, hp, hs]

theorem dispatch_of_write (sel : (Chan → Interest) → P → Chan → Sel) (h : Handler P) (w : World P) (ch : Chan)
    (hp : (w.activeEvs w.lastActive.toNat).ptr = some ch)
    (hs : sel w.chans (w.activeEvs w.lastActive.toNat).info ch = .write) :
    dispatch sel h w = invoke h ch .write w := by
  simp only [dispatch, hp, hs]

theorem dispatch_of_fatal (sel : (Chan → Interest) → P → Chan → Sel) (h : Handler P) (w : World P) (ch : Chan)
    (hp : (w.activeEvs w.lastActive.toNat).ptr = some ch)
    (hs : sel w.chans (w.activeEvs w.lastActive.toNat).info ch = .fatal) :
    dispatch sel h w = { w with fatal := true } := by
  simp only [dispatch, hp, hs, fatalIf, if_true]

theorem dispatch_of_null (sel : (Chan → Interest) → P → Chan → Sel) (h : Handler P) (w : World P)
    (hp : (w.activeEvs w.lastActive.toNat).ptr = none) :
    dispatch sel h w = w := by
  simp only [dispatch, hp]

theorem writeBatch_nil (buf : Nat → Ready P) : writeBatch [] buf = buf := by
  funext j
  simp only [writeBatch, List.length_nil, Nat.not_lt_zero, dite_false]

theorem removeChannel_activeEvs_of_neg (ch : Chan) (w : World P) (hneg : w.lastActive < 0) :
    (removeChannel ch w).activeEvs = w.activeEvs := by
  have hn : ¬ (0 ≤ w.lastActive) := by omega
  simp only [removeChannel, hn, if_false]

theorem runOps_of_fatal (ops : List Op) (w : World P) (hf : w.fatal = true) :
    runOps ops w = w := by
  cases ops with
  | nil => rfl
  | cons op ops => simp only [runOps, hf, if_true]

theorem dispatchLoop_fatal (sel : (Chan → Interest) → P → Chan → Sel) (h : Handler P) (fuel : Nat) (w : World P)
    (hf : w.fatal = true) : dispatchLoop sel h (fuel + 1) w = some w := by
  simp only [dispatchLoop]
  rw [if_pos hf]

theorem dispatchLoop_exit (sel : (Chan → Interest) → P → Chan → Sel) (h : Handler P) (fuel : Nat) (w : World P)
    (hf : w.fatal = false) (hc : ¬ 0 ≤ w.lastActive - 1) :
    dispatchLoop sel h (fuel + 1) w = some { w with lastActive := w.lastActive - 1 } := by
  simp only [dispatchLoop]
  rw [if_neg (by rw [hf]; decide), if_neg hc]

theorem dispatchLoop_succ (sel : (Chan → Interest) → P → Chan → Sel) (h : Handler P) (fuel : Nat) (w : World P)
    (hf : w.fatal = false) (hc : 0 ≤ w.lastActive - 1) :
    dispatchLoop sel h (fuel + 1) w
      = dispatchLoop sel h fuel (dispatch sel h { w with lastActive := w.lastActive - 1 }) := by
  simp only [dispatchLoop]
  rw [if_neg (by rw [hf]; decide), if_pos hc]

theorem dispatchLoop_total (sel : (Chan → Interest) → P → Chan → Sel) (h : Handler P) :
    ∀ (fuel : Nat) (w : World P), w.lastActive.toNat < fuel →
      ∃ w1, dispatchLoop sel h fuel w = some w1 := by
  intro fuel
  induction fuel with
  | zero => intro w hlt; omega
  | succ fuel ih =>
    intro w hlt
    by_cases hf : w.fatal = true
    · exact ⟨w, dispatchLoop_fatal sel h fuel w hf⟩
    · have hf0 : w.fatal = false := by simpa using hf
      by_cases hc : 0 ≤ w.lastActive - 1
      · rw [dispatchLoop_succ sel h fuel w hf0 hc]
        apply ih
        rw [dispatch_lastActive]
        show (w.lastActive - 1).toNat < fuel
        omega
      · exact ⟨_, dispatchLoop_exit sel h fuel w hf0 hc⟩

theorem loop_once_total (sel : (Chan → Interest) → P → Chan → Sel) (h : Handler P) (wr : WaitResult P)
    (w : World P) : ∃ w1, loop_once sel h wr w = some w1 := by
  unfold loop_once
  apply dispatchLoop_total
  have hl : ∀ b : Bool, (fatalIf b
      { w with activeEvs := writeBatch wr.evs w.activeEvs, lastActive := wr.ret }).lastActive
      = wr.ret := by
    intro b
    cases b <;> rfl
  rw [hl]
  omega

theorem writeBatch_lt (evs : List (Ready P)) (buf : Nat → Ready P) (j : Nat)
    (hj : j < evs.length) : writeBatch evs buf j = evs.get ⟨j, hj⟩ := by
  simp only [writeBatch, hj, dite_true]

theorem dispatch_cases (sel : (Chan → Interest) → P → Chan → Sel) (h : Handler P) (w : World P) :
    dispatch sel h w = w ∨ dispatch sel h w = { w with fatal := true } ∨
    ∃ ch k, (w.activeEvs w.lastActive.toNat).ptr = some ch ∧
      dispatch sel h w = invoke h ch k w := by
  cases hp : (w.activeEvs w.lastActive.toNat).ptr with
  | none => exact Or.inl (dispatch_of_null sel h w hp)
  | some ch =>
    cases hs : sel w.chans (w.activeEvs w.lastActive.toNat).info ch with
    | read => exact Or.inr (Or.inr ⟨ch, .read, rfl, dispatch_of_read sel h w ch hp hs⟩)
    | write => exact Or.inr (Or.inr ⟨ch, .write, rfl, dispatch_of_write sel h w ch hp hs⟩)
    | fatal => exact Or.inr (Or.inl (dispatch_of_fatal sel h w ch hp hs))

theorem scanClear_ptr_sub (ch : Chan) (buf : Nat → Ready P) :
    ∀ (i j : Nat) (c : Chan), ((scanClear ch buf i) j).ptr = some c → (buf j).ptr = some c := by
  intro i
  induction i with
  | zero =>
    intro j c hc
    unfold scanClear at hc
    split at hc
    · by_cases hj : j = 0
      · subst hj
        rw [Function.update_same] at hc
        cases hc
      · rwa [Function.update_noteq hj] at hc
    · exact hc
  | succ i ih =>
    intro j c hc
    unfold scanClear at hc
    split at hc
    · by_cases hj : j = i + 1
      · subst hj
        rw [Function.update_same] at hc
        cases hc
      · rwa [Function.update_noteq hj] at hc
    · exact ih j c hc

theorem scanClear_clears (ch : Chan) (buf : Nat → Ready P) :
    ∀ i : Nat,
      (∀ a b, a ≤ i → b ≤ i → (buf a).ptr = some ch → (buf b).ptr = some ch → a = b) →
      ∀ j, j ≤ i → ((scanClear ch buf i) j).ptr ≠ some ch := by
  intro i
  induction i with
  | zero =>
    intro _ j hj
    have hj0 : j = 0 := by omega
    subst hj0
    unfold scanClear
    split
    · rw [Function.update_same]
      simp
    · assumption
  | succ i ih =>
    intro huniq j hj
    unfold scanClear
    split
    · rename_i hhit
      by_cases hji : j = i + 1
      · subst hji
        rw [Function.update_same]
        simp
      · rw [Function.update_noteq hji]
        intro hc
        exact hji (huniq j (i + 1) hj (Nat.le_refl _) hc hhit)
    · rename_i hmiss
      by_cases hji : j = i + 1
      · subst hji
        intro hc
        exact hmiss (scanClear_ptr_sub ch buf i (i + 1) ch hc)
      · exact ih (fun a b ha hb => huniq a b (by omega) (by omega)) j (by omega)

theorem applyOp_ptr_sub (op : Op) (w : World P) (j : Nat) (c : Chan)
    (hc : ((applyOp op w).activeEvs j).ptr = some c) : (w.activeEvs j).ptr = some c := by
  cases op with
  | add ch r =>
    simp only [applyOp, addChannel, fatalIf] at hc
    split at hc <;> exact hc
  | update ch r =>
    simp only [applyOp, updateChannel, fatalIf] at hc
    split at hc <;> exact hc
  | remove ch =>
    simp only [applyOp, removeChannel] at hc
    split at hc
    · exact scanClear_ptr_sub ch w.activeEvs _ j c hc
    · exact hc
  | setInterest ch r x => exact hc

theorem runOps_ptr_sub (ops : List Op) (w : World P) (j : Nat) (c : Chan)
    (hc : ((runOps ops w).activeEvs j).ptr = some c) : (w.activeEvs j).ptr = some c := by
  induction ops generalizing w with
  | nil => exact hc
  | cons op ops ih =>
    simp only [runOps] at hc
    split at hc
    · exact hc
    · exact applyOp_ptr_sub op w j c (ih _ hc)

theorem invoke_ptr_sub (h : Handler P) (ch : Chan) (k : Kind) (w : World P) (j : Nat)
    (c : Chan) (hc : ((invoke h ch k w).activeEvs j).ptr = some c) :
    (w.activeEvs j).ptr = some c :=
  runOps_ptr_sub (h { w with calls := w.calls ++ [Call.ofKind k ch] } ch k)
    { w with calls := w.calls ++ [Call.ofKind k ch] } j c hc

theorem dispatch_ptr_sub (sel : (Chan → Interest) → P → Chan → Sel) (h : Handler P) (w : World P) (j : Nat)
    (c : Chan) (hc : ((dispatch sel h w).activeEvs j).ptr = some c) :
    (w.activeEvs j).ptr = some c := by
  rcases dispatch_cases sel h w with hd | hd | ⟨ch, k, _, hd⟩
  · rwa [hd] at hc
  · rwa [hd] at hc
  · rw [hd] at hc
    exact invoke_ptr_sub h ch k w j c hc

theorem runOps_remove_clears (B : Chan) (p : Nat) (ops : List Op) (w : World P)
    (hmem : Op.remove B ∈ ops) (hl : w.lastActive = (p : Int))
    (huniq : ∀ a b, a ≤ p → b ≤ p → (w.activeEvs a).ptr = some B →
      (w.activeEvs b).ptr = some B → a = b) :
    (runOps ops w).fatal = true ∨
      ∀ j, j ≤ p → ((runOps ops w).activeEvs j).ptr ≠ some B := by
  induction ops generalizing w with
  | nil => cases hmem
  | cons op ops ih =>
    simp only [runOps]
    by_cases hf : w.fatal = true
    · rw [if_pos hf]
      exact Or.inl hf
    · rw [if_neg hf]
      by_cases hop : op = Op.remove B
      · right
        intro j hj hc
        have hc1 := runOps_ptr_sub ops _ j B hc
        subst hop
        have h0 : (0 : Int) ≤ w.lastActive := by omega
        have hn : w.lastActive.toNat = p := by omega
        simp only [applyOp, removeChannel, h0, if_true, hn] at hc1
        exact scanClear_clears B w.activeEvs p huniq j hj hc1
      · have hmem2 : Op.remove B ∈ ops := by
          rcases List.mem_cons.1 hmem with hm | hm
          · exact absurd hm.symm hop
          · exact hm
        apply ih _ hmem2
        · rw [applyOp_lastActive]; exact hl
        · intro a b ha hb h1 h2
          exact huniq a b ha hb (applyOp_ptr_sub op w a B h1) (applyOp_ptr_sub op w b B h2)

theorem dispatchLoop_of_fatal (sel : (Chan → Interest) → P → Chan → Sel) (h : Handler P) (fuel : Nat)
    (w w1 : World P) (hrun : dispatchLoop sel h fuel w = some w1) (hf : w.fatal = true) :
    w1 = w := by
  cases fuel with
  | zero => simp only [dispatchLoop] at hrun; cases hrun
  | succ fuel =>
    rw [dispatchLoop_fatal sel h fuel w hf] at hrun
    exact (Option.some.inj hrun).symm

theorem dispatchLoop_no_ref (sel : (Chan → Interest) → P → Chan → Sel) (h : Handler P) (B : Chan) :
    ∀ (fuel : Nat) (w w1 : World P), dispatchLoop sel h fuel w = some w1 →
      (w.fatal = true ∨ ∀ j : Nat, (j : Int) < w.lastActive → (w.activeEvs j).ptr ≠ some B) →
      ∃ cs, w1.calls = w.calls ++ cs ∧ Call.handleRead B ∉ cs ∧ Call.handleWrite B ∉ cs := by
  intro fuel
  induction fuel with
  | zero => intro w w1 hrun; simp only [dispatchLoop] at hrun; cases hrun
  | succ fuel ih =>
    intro w w1 hrun hno
    by_cases hf : w.fatal = true
    · have := dispatchLoop_of_fatal sel h _ w w1 hrun hf
      subst this
      exact ⟨[], by simp, by simp, by simp⟩
    · have hf0 : w.fatal = false := by simpa using hf
      have hno1 := hno.resolve_left hf
      by_cases hc : 0 ≤ w.lastActive - 1
      · rw [dispatchLoop_succ sel h fuel w hf0 hc] at hrun
        have hno2 : ∀ d : World P, d.lastActive = w.lastActive - 1 →
            (∀ j c, (d.activeEvs j).ptr = some c → (w.activeEvs j).ptr = some c) →
            (d.fatal = true ∨
              ∀ j : Nat, (j : Int) < d.lastActive → (d.activeEvs j).ptr ≠ some B) := by
          intro d hdl hsub
          right
          intro j hj hcB
          exact hno1 j (by omega) (hsub j B hcB)
        have hnext := ih _ w1 hrun (hno2 _
          (by rw [dispatch_lastActive])
          (fun j c hcc =>
            dispatch_ptr_sub sel h { w with lastActive := w.lastActive - 1 } j c hcc))
        obtain ⟨cs, hcs, hr, hwr⟩ := hnext
        rcases dispatch_cases sel h { w with lastActive := w.lastActive - 1 }
          with hd | hd | ⟨ch, k, hp, hd⟩
        · rw [hd] at hcs
          exact ⟨cs, hcs, hr, hwr⟩
        · rw [hd] at hcs
          exact ⟨cs, hcs, hr, hwr⟩
        · rw [hd, invoke_calls] at hcs
          have hchB : ch ≠ B := by
            intro hbe
            subst hbe
            have hlt : (((w.lastActive - 1).toNat : Nat) : Int) < w.lastActive := by omega
            exact hno1 _ hlt hp
          refine ⟨Call.ofKind k ch :: cs, ?_, ?_, ?_⟩
          · rw [hcs]
            simp only [List.append_assoc, List.singleton_append]
          · intro hm
            rcases List.mem_cons.1 hm with hm | hm
            · cases k <;> simp only [Call.ofKind] at hm <;> cases hm
              exact hchB rfl
            · exact hr hm
          · intro hm
            rcases List.mem_cons.1 hm with hm | hm
            · cases k <;> simp only [Call.ofKind] at hm <;> cases hm
              exact hchB rfl
            · exact hwr hm
      · rw [dispatchLoop_exit sel h fuel w hf0 hc] at hrun
        have := Option.some.inj hrun
        subst this
        exact ⟨[], by simp, by simp, by simp⟩

theorem ofKind_eq_handleRead (k : Kind) (ch A : Chan)
    (hk : Call.ofKind k ch = Call.handleRead A) : k = .read ∧ ch = A := by
  cases k with
  | read =>
    simp only [Call.ofKind] at hk
    cases hk
    exact ⟨rfl, rfl⟩
  | write =>
    simp only [Call.ofKind] at hk
    cases hk

theorem dispatchLoop_after_remove (sel : (Chan → Interest) → P → Chan → Sel) (h : Handler P) (A B : Chan)
    (hrm : ∀ w0, Op.remove B ∈ h w0 A .read) :
    ∀ (fuel : Nat) (w w1 : World P), dispatchLoop sel h fuel w = some w1 →
      (∀ a b : Nat, (a : Int) < w.lastActive → (b : Int) < w.lastActive →
        (w.activeEvs a).ptr = some B → (w.activeEvs b).ptr = some B → a = b) →
      ∃ cs, w1.calls = w.calls ++ cs ∧
        ∀ pre post, cs = pre ++ Call.handleRead A :: post →
          Call.handleRead B ∉ post ∧ Call.handleWrite B ∉ post := by
  intro fuel
  induction fuel with
  | zero => intro w w1 hrun; simp only [dispatchLoop] at hrun; cases hrun
  | succ fuel ih =>
    intro w w1 hrun huniq
    have hempty : w1 = w ∨ w1 = { w with lastActive := w.lastActive - 1 } →
        ∃ cs, w1.calls = w.calls ++ cs ∧
          ∀ pre post, cs = pre ++ Call.handleRead A :: post →
            Call.handleRead B ∉ post ∧ Call.handleWrite B ∉ post := by
      intro hw1
      refine ⟨[], ?_, ?_⟩
      · rcases hw1 with hw1 | hw1 <;> rw [hw1] <;> simp
      · intro pre post hsplit
        cases pre <;> cases hsplit
    by_cases hf : w.fatal = true
    · exact hempty (Or.inl (dispatchLoop_of_fatal sel h _ w w1 hrun hf))
    · have hf0 : w.fatal = false := by simpa using hf
      by_cases hc : 0 ≤ w.lastActive - 1
      · rw [dispatchLoop_succ sel h fuel w hf0 hc] at hrun
        have huniq2 : ∀ a b : Nat,
            (a : Int) < (dispatch sel h { w with lastActive := w.lastActive - 1 }).lastActive →
            (b : Int) < (dispatch sel h { w with lastActive := w.lastActive - 1 }).lastActive →
            ((dispatch sel h { w with lastActive := w.lastActive - 1 }).activeEvs a).ptr
              = some B →
            ((dispatch sel h { w with lastActive := w.lastActive - 1 }).activeEvs b).ptr
              = some B → a = b := by
          intro a b ha hb h1 h2
          rw [dispatch_lastActive] at ha hb
          have ha1 : (a : Int) < w.lastActive - 1 := ha
          have hb1 : (b : Int) < w.lastActive - 1 := hb
          exact huniq a b (by omega) (by omega)
            (dispatch_ptr_sub sel h { w with lastActive := w.lastActive - 1 } a B h1)
            (dispatch_ptr_sub sel h { w with lastActive := w.lastActive - 1 } b B h2)
        rcases dispatch_cases sel h { w with lastActive := w.lastActive - 1 }
          with hd | hd | ⟨ch, k, hp, hd⟩
        · obtain ⟨cs, hcs, hsp⟩ := ih _ w1 hrun huniq2
          rw [hd] at hcs
          exact ⟨cs, hcs, hsp⟩
        · obtain ⟨cs, hcs, hsp⟩ := ih _ w1 hrun huniq2
          rw [hd] at hcs
          exact ⟨cs, hcs, hsp⟩
        · by_cases hcall : Call.ofKind k ch = Call.handleRead A
          · obtain ⟨hk, hch⟩ := ofKind_eq_handleRead k ch A hcall
            subst hk
            subst hch
            have hclr := runOps_remove_clears B (w.lastActive - 1).toNat
              (h { w with lastActive := w.lastActive - 1,
                          calls := w.calls ++ [Call.ofKind .read ch] } ch .read)
              { w with lastActive := w.lastActive - 1,
                       calls := w.calls ++ [Call.ofKind .read ch] }
              (hrm _) (by show w.lastActive - 1 = _; omega)
              (fun a b ha hb h1 h2 => huniq a b (by omega) (by omega) h1 h2)
            have hclr2 : (dispatch sel h { w with lastActive := w.lastActive - 1 }).fatal
                  = true ∨
                ∀ j : Nat,
                  (j : Int) < (dispatch sel h { w with lastActive := w.lastActive - 1 }).lastActive →
                  ((dispatch sel h { w with lastActive := w.lastActive - 1 }).activeEvs j).ptr
                    ≠ some B := by
              rw [dispatch_lastActive, hd]
              rcases hclr with hfat | hno
              · exact Or.inl hfat
              · right
                intro j hj
                have hj1 : (j : Int) < w.lastActive - 1 := hj
                exact hno j (by omega)
            obtain ⟨cs, hcs, hr, hwr⟩ := dispatchLoop_no_ref sel h B _ _ w1 hrun hclr2
            rw [hd, invoke_calls] at hcs
            refine ⟨Call.ofKind .read ch :: cs, ?_, ?_⟩
            · rw [hcs]
              simp only [List.append_assoc, List.singleton_append]
            · intro pre post hsplit
              have hsub : ∀ x ∈ post, x ∈ cs := by
                intro x hx
                cases pre with
                | nil =>
                  simp only [List.nil_append, List.cons.injEq] at hsplit
                  rw [hsplit.2]
                  exact hx
                | cons y pre =>
                  simp only [List.cons_append, List.cons.injEq] at hsplit
                  rw [hsplit.2]
                  simp [hx]
              exact ⟨fun hm => hr (hsub _ hm), fun hm => hwr (hsub _ hm)⟩
          · obtain ⟨cs, hcs, hsp⟩ := ih _ w1 hrun huniq2
            rw [hd, invoke_calls] at hcs
            refine ⟨Call.ofKind k ch :: cs, ?_, ?_⟩
            · rw [hcs]
              simp only [List.append_assoc, List.singleton_append]
            · intro pre post hsplit
              cases pre with
              | nil =>
                simp only [List.nil_append, List.cons.injEq] at hsplit
                exact absurd hsplit.1 hcall
              | cons y pre =>
                simp only [List.cons_append, List.cons.injEq] at hsplit
                exact hsp pre post hsplit.2
      · rw [dispatchLoop_exit sel h fuel w hf0 hc] at hrun
        exact hempty (Or.inr (Option.some.inj hrun).symm)

theorem applyOp_live_keep (B : Chan) (op : Op) (w : World P) (hop : ∀ r, op ≠ Op.add B r)
    (hB : B ∉ w.liveChannels) : B ∉ (applyOp op w).liveChannels := by
  cases op with
  | add ch r =>
    simp only [applyOp, addChannel, fatalIf]
    split
    · exact hB
    · have hne : B ≠ ch := fun hbe => hop r (by rw [hbe])
      simp only [Finset.mem_insert, not_or]
      exact ⟨hne, hB⟩
  | update ch r =>
    simp only [applyOp, updateChannel, fatalIf]
    split <;> exact hB
  | remove ch =>
    simp only [applyOp, removeChannel]
    intro hm
    exact hB (Finset.mem_of_mem_erase hm)
  | setInterest ch r x => exact hB

theorem runOps_live_keep (B : Chan) (ops : List Op) (w : World P)
    (hops : ∀ r, Op.add B r ∉ ops) (hB : B ∉ w.liveChannels) :
    B ∉ (runOps ops w).liveChannels := by
  induction ops generalizing w with
  | nil => exact hB
  | cons op ops ih =>
    simp only [runOps]
    split
    · exact hB
    · apply ih
      · intro r hm
        exact hops r (List.mem_cons_of_mem _ hm)
      · apply applyOp_live_keep B op w _ hB
        intro r hr
        exact hops r (by rw [hr]; exact List.mem_cons_self _ _)

theorem runOps_live_remove (B : Chan) (ops : List Op) (w : World P)
    (hmem : Op.remove B ∈ ops) (hops : ∀ r, Op.add B r ∉ ops)
    (hf : (runOps ops w).fatal = false) : B ∉ (runOps ops w).liveChannels := by
  induction ops generalizing w with
  | nil => cases hmem
  | cons op ops ih =>
    simp only [runOps] at hf ⊢
    by_cases hwf : w.fatal = true
    · rw [if_pos hwf] at hf
      rw [hwf] at hf
      cases hf
    · rw [if_neg hwf] at hf ⊢
      have hops2 : ∀ r, Op.add B r ∉ ops := fun r hm => hops r (List.mem_cons_of_mem _ hm)
      by_cases hop : op = Op.remove B
      · subst hop
        apply runOps_live_keep B ops _ hops2
        simp only [applyOp, removeChannel, Finset.mem_erase, ne_eq, not_true_eq_false,
          false_and, not_false_eq_true]
      · have hmem2 : Op.remove B ∈ ops := by
          rcases List.mem_cons.1 hmem with hm | hm
          · exact absurd hm.symm hop
          · exact hm
        exact ih _ hmem2 hops2 hf

theorem dispatch_live_keep (sel : (Chan → Interest) → P → Chan → Sel) (h : Handler P) (B : Chan)
    (hadd : ∀ w0 c k r, Op.add B r ∉ h w0 c k) (w : World P) (hB : B ∉ w.liveChannels) :
    B ∉ (dispatch sel h w).liveChannels := by
  rcases dispatch_cases sel h w with hd | hd | ⟨ch, k, _, hd⟩
  · rwa [hd]
  · rwa [hd]
  · rw [hd]
    exact runOps_live_keep B _ { w with calls := w.calls ++ [Call.ofKind k ch] }
      (hadd _ ch k) hB

theorem dispatchLoop_live (sel : (Chan → Interest) → P → Chan → Sel) (h : Handler P) (A B : Chan)
    (hrm : ∀ w0, Op.remove B ∈ h w0 A .read)
    (hadd : ∀ w0 c k r, Op.add B r ∉ h w0 c k) :
    ∀ (fuel : Nat) (w w1 : World P), dispatchLoop sel h fuel w = some w1 →
      ∃ cs, w1.calls = w.calls ++ cs ∧
        (w1.fatal = false → (B ∉ w.liveChannels ∨ Call.handleRead A ∈ cs) →
          B ∉ w1.liveChannels) := by
  intro fuel
  induction fuel with
  | zero => intro w w1 hrun; simp only [dispatchLoop] at hrun; cases hrun
  | succ fuel ih =>
    intro w w1 hrun
    by_cases hf : w.fatal = true
    · have := dispatchLoop_of_fatal sel h _ w w1 hrun hf
      subst this
      exact ⟨[], by simp, fun _ hor => hor.elim id (fun hm => by cases hm)⟩
    · have hf0 : w.fatal = false := by simpa using hf
      by_cases hc : 0 ≤ w.lastActive - 1
      · rw [dispatchLoop_succ sel h fuel w hf0 hc] at hrun
        obtain ⟨cs, hcs, hlive⟩ := ih _ w1 hrun
        have hkeep := dispatch_live_keep sel h B hadd { w with lastActive := w.lastActive - 1 }
        rcases dispatch_cases sel h { w with lastActive := w.lastActive - 1 }
          with hd | hd | ⟨ch, k, hp, hd⟩
        · rw [hd] at hcs hlive
          exact ⟨cs, hcs, hlive⟩
        · rw [hd] at hcs hlive
          exact ⟨cs, hcs, hlive⟩
        · refine ⟨Call.ofKind k ch :: cs, ?_, ?_⟩
          · rw [hcs, hd, invoke_calls]
            simp only [List.append_assoc, List.singleton_append]
          · intro hf1 hor
            apply hlive hf1
            rcases hor with hB | hm
            · exact Or.inl (hkeep hB)
            · rcases List.mem_cons.1 hm with hm | hm
              · left
                obtain ⟨hk, hch⟩ := ofKind_eq_handleRead k ch A hm.symm
                subst hk
                subst hch
                have hdf : (dispatch sel h { w with lastActive := w.lastActive - 1 }).fatal
                    = false := by
                  by_contra hdt
                  have hdt1 : (dispatch sel h { w with lastActive := w.lastActive - 1 }).fatal
                      = true := by simpa using hdt
                  have := dispatchLoop_of_fatal sel h _ _ w1 hrun hdt1
                  rw [this, hdt1] at hf1
                  cases hf1
                rw [hd] at hdf ⊢
                exact runOps_live_remove B _
                  { w with lastActive := w.lastActive - 1,
                           calls := w.calls ++ [Call.ofKind .read ch] }
                  (hrm _) (hadd _ ch .read) hdf
              · exact Or.inr hm
      · rw [dispatchLoop_exit sel h fuel w hf0 hc] at hrun
        have := Option.some.inj hrun
        subst this
        exact ⟨[], by simp, fun _ hor => hor.elim id (fun hm => by cases hm)⟩

/-! ### The cursor -/

theorem applyOp_scans (op : Op) (w : World P) :
    ∀ c ∈ (applyOp op w).scans, c ∈ w.scans ∨ c = w.lastActive := by
  intro c hc
  cases op with
  | add ch r =>
    simp only [applyOp, addChannel, fatalIf] at hc
    split at hc <;> exact Or.inl hc
  | update ch r =>
    simp only [applyOp, updateChannel, fatalIf] at hc
    split at hc <;> exact Or.inl hc
  | remove ch =>
    simp only [applyOp, removeChannel, List.mem_append, List.mem_singleton] at hc
    exact hc
  | setInterest ch r x => exact Or.inl hc

theorem runOps_scans (ops : List Op) (w : World P) :
    ∀ c ∈ (runOps ops w).scans, c ∈ w.scans ∨ c = w.lastActive := by
  induction ops generalizing w with
  | nil => intro c hc; exact Or.inl hc
  | cons op ops ih =>
    intro c hc
    simp only [runOps] at hc
    split at hc
    · exact Or.inl hc
    · rcases ih _ c hc with h1 | h1
      · exact applyOp_scans op w c h1
      · rw [applyOp_lastActive] at h1
        exact Or.inr h1

theorem dispatch_scans (sel : (Chan → Interest) → P → Chan → Sel) (h : Handler P) (w : World P) :
    ∀ c ∈ (dispatch sel h w).scans, c ∈ w.scans ∨ c = w.lastActive := by
  intro c hc
  rcases dispatch_cases sel h w with hd | hd | ⟨ch, k, _, hd⟩
  · rw [hd] at hc
    exact Or.inl hc
  · rw [hd] at hc
    exact Or.inl hc
  · rw [hd] at hc
    exact runOps_scans _ { w with calls := w.calls ++ [Call.ofKind k ch] } c hc

theorem dispatchLoop_cursor (sel : (Chan → Interest) → P → Chan → Sel) (h : Handler P) :
    ∀ (fuel : Nat) (w w1 : World P), dispatchLoop sel h fuel w = some w1 →
      (∀ c ∈ w1.scans, c ∈ w.scans ∨ (0 ≤ c ∧ c < w.lastActive)) ∧
      (w1.fatal = false → w1.lastActive = min w.lastActive 0 - 1) := by
  intro fuel
  induction fuel with
  | zero => intro w w1 hrun; simp only [dispatchLoop] at hrun; cases hrun
  | succ fuel ih =>
    intro w w1 hrun
    by_cases hf : w.fatal = true
    · have := dispatchLoop_of_fatal sel h _ w w1 hrun hf
      subst this
      exact ⟨fun c hc => Or.inl hc, fun hf1 => by rw [hf] at hf1; cases hf1⟩
    · have hf0 : w.fatal = false := by simpa using hf
      by_cases hc : 0 ≤ w.lastActive - 1
      · rw [dispatchLoop_succ sel h fuel w hf0 hc] at hrun
        obtain ⟨hs, hl⟩ := ih _ w1 hrun
        rw [dispatch_lastActive] at hs hl
        have hl0 : ({ w with lastActive := w.lastActive - 1 } : World P).lastActive
            = w.lastActive - 1 := rfl
        rw [hl0] at hs hl
        constructor
        · intro c hcm
          rcases hs c hcm with h1 | h1
          · rcases dispatch_scans sel h _ c h1 with h2 | h2
            · exact Or.inl h2
            · rw [hl0] at h2
              exact Or.inr (by omega)
          · exact Or.inr (by omega)
        · intro hf1
          rw [hl hf1]
          omega
      · rw [dispatchLoop_exit sel h fuel w hf0 hc] at hrun
        have := Option.some.inj hrun
        subst this
        exact ⟨fun c hcm => Or.inl hcm, fun _ => by show w.lastActive - 1 = _; omega⟩

theorem loop_once_cursor (sel : (Chan → Interest) → P → Chan → Sel) (h : Handler P) (wr : WaitResult P)
    (w w1 : World P) (hrun : loop_once sel h wr w = some w1) :
    (∀ c ∈ w1.scans, c ∈ w.scans ∨ (0 ≤ c ∧ c < wr.ret)) ∧
    (w1.fatal = false → w1.lastActive = min wr.ret 0 - 1) := by
  unfold loop_once at hrun
  generalize decide (wr.ret = -1 ∧ wr.errno ≠ EINTR) = bf at hrun
  have hres := dispatchLoop_cursor sel h _ _ w1 hrun
  cases bf <;> exact hres

theorem run_cursor (sel : (Chan → Interest) → P → Chan → Sel) (kMaxEvents : Nat) :
    ∀ (cmds : List (Cmd P)) (w : World P),
      (∀ h wr, Cmd.loop h wr ∈ cmds → -1 ≤ wr.ret ∧ wr.ret ≤ (kMaxEvents : Int)) →
      (∀ c ∈ w.scans, -2 ≤ c ∧ c ≤ (kMaxEvents : Int) - 1) →
      (w.fatal = false → -2 ≤ w.lastActive ∧ w.lastActive < 0) →
      ∃ w1, run sel cmds w = some w1 ∧
        (∀ c ∈ w1.scans, -2 ≤ c ∧ c ≤ (kMaxEvents : Int) - 1) ∧
        (w1.fatal = false → -2 ≤ w1.lastActive ∧ w1.lastActive < 0) := by
  intro cmds
  induction cmds with
  | nil => intro w _ hs hl; exact ⟨w, rfl, hs, hl⟩
  | cons c cmds ih =>
    intro w hwait hs hl
    have hwait2 : ∀ h wr, Cmd.loop h wr ∈ cmds →
        -1 ≤ wr.ret ∧ wr.ret ≤ (kMaxEvents : Int) :=
      fun h wr hm => hwait h wr (List.mem_cons_of_mem _ hm)
    have hstep : ∃ w2, step sel c w = some w2 ∧
        (∀ x ∈ w2.scans, -2 ≤ x ∧ x ≤ (kMaxEvents : Int) - 1) ∧
        (w2.fatal = false → -2 ≤ w2.lastActive ∧ w2.lastActive < 0) := by
      by_cases hf : w.fatal = true
      · exact ⟨w, by simp only [step, hf, if_true], hs, hl⟩
      · have hf0 : w.fatal = false := by simpa using hf
        have hl0 := hl hf0
        cases c with
        | add ch r =>
          refine ⟨addChannel r ch w, by simp only [step, hf0, Bool.false_eq_true, if_false], ?_, ?_⟩
          · intro x hx
            rcases applyOp_scans (Op.add ch r) w x hx with h1 | h1
            · exact hs x h1
            · omega
          · intro _
            have := applyOp_lastActive (Op.add ch r) w
            simp only [applyOp] at this
            rw [this]; exact hl0
        | update ch r =>
          refine ⟨updateChannel r ch w, by simp only [step, hf0, Bool.false_eq_true, if_false], ?_, ?_⟩
          · intro x hx
            rcases applyOp_scans (Op.update ch r) w x hx with h1 | h1
            · exact hs x h1
            · omega
          · intro _
            have := applyOp_lastActive (Op.update ch r) w
            simp only [applyOp] at this
            rw [this]; exact hl0
        | remove ch =>
          refine ⟨removeChannel ch w, by simp only [step, hf0, Bool.false_eq_true, if_false], ?_, ?_⟩
          · intro x hx
            rcases applyOp_scans (Op.remove ch) w x hx with h1 | h1
            · exact hs x h1
            · omega
          · intro _
            exact hl0
        | setInterest ch r x =>
          exact ⟨applyOp (Op.setInterest ch r x) w,
            by simp only [step, hf0, Bool.false_eq_true, if_false], hs, fun _ => hl0⟩
        | loop h wr =>
          obtain ⟨w2, hrun⟩ := loop_once_total sel h wr w
          obtain ⟨hbound1, hbound2⟩ := hwait h wr (List.mem_cons_self _ _)
          obtain ⟨hsc, hlc⟩ := loop_once_cursor sel h wr w w2 hrun
          refine ⟨w2, by simp only [step, hf0, Bool.false_eq_true, if_false]; exact hrun, ?_, ?_⟩
          · intro x hx
            rcases hsc x hx with h1 | h1
            · exact hs x h1
            · omega
          · intro hf2
            rw [hlc hf2]
            omega
    obtain ⟨w2, hw2, hs2, hl2⟩ := hstep
    obtain ⟨w3, hw3, hs3, hl3⟩ := ih w2 hwait2 hs2 hl2
    exact ⟨w3, by simp only [run, hw2]; exact hw3, hs3, hl3⟩

/-! ### The destructor -/

theorem destroyLoop_empty (close : Chan → World P → World P) (fuel : Nat) (w : World P)
    (hf : w.fatal = false) (he : ¬ w.liveChannels.Nonempty) :
    destroyLoop close (fuel + 1) w = some w := by
  simp only [destroyLoop]
  rw [if_neg (by rw [hf]; decide), dif_neg he]

theorem destroyLoop_nonempty (close : Chan → World P → World P) (fuel : Nat) (w : World P)
    (hf : w.fatal = false) (hne : w.liveChannels.Nonempty) :
    destroyLoop close (fuel + 1) w
      = destroyLoop close fuel (close (w.liveChannels.min' hne)
          { w with calls := w.calls ++ [Call.close (w.liveChannels.min' hne)] }) := by
  simp only [destroyLoop]
  rw [if_neg (by rw [hf]; decide), dif_pos hne]

theorem destroyLoop_closes (close : Chan → World P → World P)
    (hclose : ∀ ch w0, close ch w0 = removeChannel ch w0) :
    ∀ (n fuel : Nat) (w : World P), w.fatal = false → w.liveChannels.card = n → n < fuel →
      ∃ (w1 : World _) (cs : List Chan), destroyLoop close fuel w = some w1 ∧ w1.liveChannels = ∅ ∧
        w1.calls = w.calls ++ cs.map Call.close ∧ cs.Nodup ∧ cs.length = n ∧
        ∀ ch, ch ∈ cs ↔ ch ∈ w.liveChannels := by
  intro n
  induction n with
  | zero =>
    intro fuel w hf hcard hlt
    cases fuel with
    | zero => omega
    | succ fuel =>
      have he : w.liveChannels = ∅ := Finset.card_eq_zero.1 hcard
      have hne : ¬ w.liveChannels.Nonempty := by
        rw [he]; exact Finset.not_nonempty_empty
      refine ⟨w, [], destroyLoop_empty close fuel w hf hne, he, by simp, List.nodup_nil,
        rfl, ?_⟩
      intro ch
      rw [he]
      simp
  | succ n ih =>
    intro fuel w hf hcard hlt
    cases fuel with
    | zero => omega
    | succ fuel =>
      have hne : w.liveChannels.Nonempty := by
        rw [← Finset.card_pos, hcard]; omega
      have hmem := Finset.min'_mem w.liveChannels hne
      rw [destroyLoop_nonempty close fuel w hf hne, hclose]
      generalize w.liveChannels.min' hne = m at hmem
      have hcard2 : (removeChannel m
          { w with calls := w.calls ++ [Call.close m] }).liveChannels.card = n := by
        show (w.liveChannels.erase m).card = n
        rw [Finset.card_erase_of_mem hmem, hcard]
        rfl
      obtain ⟨w1, cs, hrun, hlive, hcalls, hnd, hlen, hiff⟩ :=
        ih fuel (removeChannel m { w with calls := w.calls ++ [Call.close m] }) hf hcard2
          (by omega)
      have hiff2 : ∀ ch, ch ∈ cs ↔ ch ∈ w.liveChannels.erase m := hiff
      refine ⟨w1, m :: cs, hrun, hlive, ?_, ?_, by rw [List.length_cons, hlen], ?_⟩
      · rw [hcalls]
        show (w.calls ++ [Call.close m]) ++ cs.map Call.close = _
        simp only [List.map_cons, List.append_assoc, List.singleton_append]
      · refine List.nodup_cons.2 ⟨?_, hnd⟩
        intro hm
        exact Finset.not_mem_erase m w.liveChannels ((hiff2 m).1 hm)
      · intro ch
        rw [List.mem_cons, hiff2, Finset.mem_erase]
        constructor
        · rintro (rfl | ⟨_, h2⟩)
          · exact hmem
          · exact h2
        · intro hch
          by_cases hcm : ch = m
          · exact Or.inl hcm
          · exact Or.inr ⟨hcm, hch⟩

end lemmas

/-! ## Basic facts about the registration table -/

namespace PollerEpoll

theorem stepReg_of_fatal (fdOf : Chan → Int) (c : RegCmd) (s : Sys)
    (hf : s.poller.fatal = true) : stepReg fdOf c s = s := by
  simp only [stepReg, hf, if_true]

theorem runReg_of_fatal (fdOf : Chan → Int) (cmds : List RegCmd) (s : Sys)
    (hf : s.poller.fatal = true) : runReg fdOf cmds s = s := by
  induction cmds with
  | nil => rfl
  | cons c cmds ih => rw [runReg, stepReg_of_fatal fdOf c s hf, ih]

theorem stepReg_live_sub (fdOf : Chan → Int) (c : RegCmd) (s : Sys)
    (hnf : (stepReg fdOf c s).poller.fatal = false)
    (hinv : ∀ ch ∈ s.poller.liveChannels, fdOf ch ∈ s.reg) :
    ∀ ch ∈ (stepReg fdOf c s).poller.liveChannels, fdOf ch ∈ (stepReg fdOf c s).reg := by
  by_cases hf : s.poller.fatal = true
  · rw [stepReg_of_fatal fdOf c s hf]; exact hinv
  · have hf0 : s.poller.fatal = false := by simpa using hf
    cases c with
    | add a r w =>
      by_cases hm : fdOf a ∈ s.reg
      · simp [stepReg, hf0, addChannelSys, epoll_ctl, hm, addChannel, fatalIf] at hnf
      · intro ch hch
        simp [stepReg, hf0, addChannelSys, epoll_ctl, hm, addChannel, fatalIf] at hch ⊢
        rcases hch with rfl | hch
        · exact Or.inl rfl
        · exact Or.inr (hinv ch hch)
    | update a r w =>
      by_cases hm : fdOf a ∈ s.reg
      · intro ch hch
        simp [stepReg, hf0, updateChannelSys, epoll_ctl, hm, updateChannel, fatalIf] at hch ⊢
        exact hinv ch hch
      · simp [stepReg, hf0, updateChannelSys, epoll_ctl, hm, updateChannel, fatalIf] at hnf
    | remove a =>
      intro ch hch
      simp [stepReg, hf0, removeChannelSys, removeChannel] at hch ⊢
      exact hinv ch hch.2

theorem stepReg_eq (fdOf : Chan → Int) (c : RegCmd) (s : Sys) (hk : c.keeps = true)
    (hnf : (stepReg fdOf c s).poller.fatal = false)
    (hinv : s.reg = s.poller.liveChannels.image fdOf) :
    (stepReg fdOf c s).reg = (stepReg fdOf c s).poller.liveChannels.image fdOf := by
  by_cases hf : s.poller.fatal = true
  · rw [stepReg_of_fatal fdOf c s hf]; exact hinv
  · have hf0 : s.poller.fatal = false := by simpa using hf
    cases c with
    | add a r w =>
      by_cases hm : fdOf a ∈ s.reg
      · simp [stepReg, hf0, addChannelSys, epoll_ctl, hm, addChannel, fatalIf] at hnf
      · simp only [stepReg, hf0, addChannelSys, epoll_ctl, hm, addChannel, fatalIf,
          Bool.false_eq_true, if_false, ne_eq, not_true_eq_false]
        rw [Finset.image_insert, hinv]
    | update a r w =>
      by_cases hm : fdOf a ∈ s.reg
      · simp only [stepReg, hf0, updateChannelSys, epoll_ctl, hm, updateChannel, fatalIf,
          Bool.false_eq_true, if_false, if_true, ne_eq, not_true_eq_false]
        exact hinv
      · simp [stepReg, hf0, updateChannelSys, epoll_ctl, hm, updateChannel, fatalIf] at hnf
    | remove a => simp [RegCmd.keeps] at hk


theorem runReg_inv (fdOf : Chan → Int) :
    ∀ (cmds : List RegCmd) (s : Sys), (runReg fdOf cmds s).poller.fatal = false →
      ((∀ ch ∈ s.poller.liveChannels, fdOf ch ∈ s.reg) →
        ∀ ch ∈ (runReg fdOf cmds s).poller.liveChannels, fdOf ch ∈ (runReg fdOf cmds s).reg) ∧
      ((∀ c ∈ cmds, c.keeps = true) → s.reg = s.poller.liveChannels.image fdOf →
        (runReg fdOf cmds s).reg = (runReg fdOf cmds s).poller.liveChannels.image fdOf) := by
  intro cmds
  induction cmds with
  | nil => intro s _; exact ⟨fun hinv => hinv, fun _ hinv => hinv⟩
  | cons c cmds ih =>
    intro s hnf
    rw [runReg] at hnf ⊢
    have hstep : (stepReg fdOf c s).poller.fatal = false := by
      by_contra hc
      have hc1 : (stepReg fdOf c s).poller.fatal = true := by simpa using hc
      rw [runReg_of_fatal fdOf cmds _ hc1, hc1] at hnf
      cases hnf
    obtain ⟨ih1, ih2⟩ := ih (stepReg fdOf c s) hnf
    exact ⟨fun hinv => ih1 (stepReg_live_sub fdOf c s hstep hinv),
      fun hk hinv => ih2 (fun x hx => hk x (List.mem_cons_of_mem _ hx))
        (stepReg_eq fdOf c s (hk c (List.mem_cons_self _ _)) hstep hinv)⟩

end PollerEpoll

namespace PollerKqueue

theorem kevent_add (reg : Finset (Int × Filter)) (fd : Int) (r w : Bool) :
    (kevent reg (addChanges fd r w)).2 = 0 ∧
    (∀ p, p ∈ (kevent reg (addChanges fd r w)).1 → p ∈ reg ∨ p.1 = fd) ∧
    (∀ p, p ∈ reg → p ∈ (kevent reg (addChanges fd r w)).1) ∧
    ((r || w) = true → ∃ f, (fd, f) ∈ (kevent reg (addChanges fd r w)).1) := by
  cases r <;> cases w <;>
    simp only [addChanges, kevent, if_true, Bool.false_eq_true, if_false, List.append_nil,
      List.nil_append, List.singleton_append, Finset.mem_insert, Bool.or_self,
      Bool.or_false, Bool.or_true, true_and, forall_true_left, false_implies,
      IsEmpty.forall_iff, and_true]
  · exact ⟨fun p hp => Or.inl hp, fun p hp => hp⟩
  · refine ⟨?_, fun p hp => Or.inr hp, ⟨.write, Or.inl rfl⟩⟩
    rintro p (rfl | hp)
    · exact Or.inr rfl
    · exact Or.inl hp
  · refine ⟨?_, fun p hp => Or.inr hp, ⟨.read, Or.inl rfl⟩⟩
    rintro p (rfl | hp)
    · exact Or.inr rfl
    · exact Or.inl hp
  · refine ⟨?_, fun p hp => Or.inr (Or.inr hp), ⟨.write, Or.inl rfl⟩⟩
    rintro p (rfl | rfl | hp)
    · exact Or.inr rfl
    · exact Or.inr rfl
    · exact Or.inl hp

theorem kevent_update (reg : Finset (Int × Filter)) (fd : Int) (r w : Bool)
    (hok : (kevent reg (updateChanges fd r w)).2 = 0) :
    (∀ p, p ∈ (kevent reg (updateChanges fd r w)).1 → p ∈ reg ∨ p.1 = fd) ∧
    (∀ p, p ∈ reg → p.1 ≠ fd → p ∈ (kevent reg (updateChanges fd r w)).1) ∧
    ((r || w) = true → ∃ f, (fd, f) ∈ (kevent reg (updateChanges fd r w)).1) := by
  cases r <;> cases w
  · simp only [Bool.or_self, Bool.false_eq_true, false_implies, and_true]
    by_cases h1 : (fd, Filter.read) ∈ reg
    · by_cases h2 : (fd, Filter.write) ∈ reg.erase (fd, Filter.read)
      · simp only [updateChanges, kevent, Bool.false_eq_true, if_false, h1, if_true, h2,
          Finset.mem_erase]
        exact ⟨fun p hp => Or.inl hp.2.2,
          fun p hp hne => ⟨fun hc => hne (by rw [hc]), fun hc => hne (by rw [hc]), hp⟩⟩
      · simp [updateChanges, kevent, h1, h2] at hok
    · simp [updateChanges, kevent, h1] at hok
  · by_cases h1 : (fd, Filter.read) ∈ reg
    · simp only [updateChanges, kevent, Bool.false_eq_true, if_false, h1, if_true,
        Finset.mem_insert, Finset.mem_erase, Bool.or_true, forall_true_left]
      refine ⟨?_, fun p hp hne => Or.inr ⟨fun hc => hne (by rw [hc]), hp⟩,
        ⟨.write, Or.inl rfl⟩⟩
      rintro p (rfl | hp)
      · exact Or.inr rfl
      · exact Or.inl hp.2
    · simp [updateChanges, kevent, h1] at hok
  · by_cases h2 : (fd, Filter.write) ∈ insert (fd, Filter.read) reg
    · simp only [updateChanges, kevent, Bool.false_eq_true, if_false, if_true, h2,
        Finset.mem_insert, Finset.mem_erase, Bool.or_false, forall_true_left]
      refine ⟨?_, fun p hp hne => ⟨fun hc => hne (by rw [hc]), Or.inr hp⟩,
        ⟨.read, ⟨fun hc => Filter.noConfusion (Prod.mk.inj hc).2, Or.inl rfl⟩⟩⟩
      rintro p ⟨_, (rfl | hp)⟩
      · exact Or.inr rfl
      · exact Or.inl hp
    · simp [updateChanges, kevent, h2] at hok
  · simp only [updateChanges, kevent, if_true, Finset.mem_insert, Bool.or_self,
      forall_true_left]
    refine ⟨?_, fun p hp _ => Or.inr (Or.inr hp), ⟨.write, Or.inl rfl⟩⟩
    rintro p (rfl | rfl | hp)
    · exact Or.inr rfl
    · exact Or.inr rfl
    · exact Or.inl hp


theorem stepReg_of_fatal_kq (fdOf : Chan → Int) (c : RegCmd) (s : Sys)
    (hf : s.poller.fatal = true) : stepReg fdOf c s = s := by
  simp only [stepReg, hf, if_true]

theorem runReg_of_fatal_kq (fdOf : Chan → Int) (cmds : List RegCmd) (s : Sys)
    (hf : s.poller.fatal = true) : runReg fdOf cmds s = s := by
  induction cmds with
  | nil => rfl
  | cons c cmds ih => rw [runReg, stepReg_of_fatal_kq fdOf c s hf, ih]

theorem stepReg_add (fdOf : Chan → Int) (a : Chan) (r w : Bool) (s : Sys)
    (hf : s.poller.fatal = false) :
    stepReg fdOf (.add a r w) s
      = { reg := (kevent s.reg (addChanges (fdOf a) r w)).1
          poller := { s.poller with liveChannels := insert a s.poller.liveChannels } } := by
  simp only [stepReg, hf, Bool.false_eq_true, if_false, addChannelSys, addChannel,
    (kevent_add s.reg (fdOf a) r w).1, ne_eq, not_true_eq_false]

theorem stepReg_update (fdOf : Chan → Int) (a : Chan) (r w : Bool) (s : Sys)
    (hf : s.poller.fatal = false)
    (hnf : (stepReg fdOf (.update a r w) s).poller.fatal = false) :
    (kevent s.reg (updateChanges (fdOf a) r w)).2 = 0 ∧
    stepReg fdOf (.update a r w) s
      = { reg := (kevent s.reg (updateChanges (fdOf a) r w)).1, poller := s.poller } := by
  by_cases hr : (kevent s.reg (updateChanges (fdOf a) r w)).2 = 0
  · refine ⟨hr, ?_⟩
    simp only [stepReg, hf, Bool.false_eq_true, if_false, updateChannelSys, updateChannel,
      hr, ne_eq, not_true_eq_false]
  · simp [stepReg, hf, updateChannelSys, updateChannel, hr, fatalIf] at hnf

theorem runReg_inv_kq (fdOf : Chan → Int) :
    ∀ (cmds : List RegCmd) (s : Sys),
      (∀ c ∈ cmds, c.keeps = true ∧ c.interested = true) →
      updatesLive s.poller.liveChannels cmds = true →
      (runReg fdOf cmds s).poller.fatal = false →
      (∀ p ∈ s.reg, ∃ ch ∈ s.poller.liveChannels, fdOf ch = p.1) →
      (∀ ch ∈ s.poller.liveChannels, ∃ f, (fdOf ch, f) ∈ s.reg) →
      (∀ p ∈ (runReg fdOf cmds s).reg,
        ∃ ch ∈ (runReg fdOf cmds s).poller.liveChannels, fdOf ch = p.1) ∧
      (∀ ch ∈ (runReg fdOf cmds s).poller.liveChannels,
        ∃ f, (fdOf ch, f) ∈ (runReg fdOf cmds s).reg) := by
  intro cmds
  induction cmds with
  | nil => intro s _ _ _ ha hb; exact ⟨ha, hb⟩
  | cons c cmds ih =>
    intro s hc hu hnf ha hb
    rw [runReg] at hnf ⊢
    have hstep : (stepReg fdOf c s).poller.fatal = false := by
      by_contra hcon
      have hc1 : (stepReg fdOf c s).poller.fatal = true := by simpa using hcon
      rw [runReg_of_fatal_kq fdOf cmds _ hc1, hc1] at hnf
      cases hnf
    have hf : s.poller.fatal = false := by
      by_contra hcon
      have hc1 : s.poller.fatal = true := by simpa using hcon
      rw [stepReg_of_fatal_kq fdOf c s hc1, hc1] at hstep
      cases hstep
    have hrest : ∀ x ∈ cmds, x.keeps = true ∧ x.interested = true :=
      fun x hx => hc x (List.mem_cons_of_mem _ hx)
    obtain ⟨hk, hi⟩ := hc c (List.mem_cons_self _ _)
    cases c with
    | add a r w =>
      obtain ⟨_, hsub, hsup, hex⟩ := kevent_add s.reg (fdOf a) r w
      rw [stepReg_add fdOf a r w s hf] at hnf ⊢
      apply ih _ hrest hu hnf
      · intro p hp
        rcases hsub p hp with h1 | h1
        · obtain ⟨ch, hch, hfd⟩ := ha p h1
          exact ⟨ch, Finset.mem_insert_of_mem hch, hfd⟩
        · exact ⟨a, Finset.mem_insert_self _ _, h1.symm⟩
      · intro ch hch
        rcases Finset.mem_insert.1 hch with rfl | hch
        · exact hex hi
        · obtain ⟨f, hf1⟩ := hb ch hch
          exact ⟨f, hsup _ hf1⟩
    | update a r w =>
      obtain ⟨hok, heq⟩ := stepReg_update fdOf a r w s hf hstep
      obtain ⟨hsub, hsup, hex⟩ := kevent_update s.reg (fdOf a) r w hok
      simp only [updatesLive, Bool.and_eq_true, decide_eq_true_eq] at hu
      rw [heq] at hnf ⊢
      apply ih { reg := (kevent s.reg (updateChanges (fdOf a) r w)).1, poller := s.poller }
        hrest hu.2 hnf
      · intro p hp
        rcases hsub p hp with h1 | h1
        · exact ha p h1
        · exact ⟨a, hu.1, h1.symm⟩
      · intro ch hch
        by_cases hfd : fdOf ch = fdOf a
        · rw [hfd]
          exact hex hi
        · obtain ⟨f, hf1⟩ := hb ch hch
          exact ⟨f, hsup _ hf1 hfd⟩
    | remove a => simp [RegCmd.keeps] at hk

end PollerKqueue

/-! ## Claims -/

/-- C10. Fatal messages are never filtered: whatever value is passed to
`setLogLevel(LogLevel)` or to `adjustLogLevel` (from any current level, under any
conversion of the sum to the enumeration type), the stored level lies in
`[LFATAL, LALL]`; with a level so stored `handy_fatal` calls `logv` with `LFATAL`, and
`handy_fatalif` / `handy_check` do so exactly when their condition is true. -/
theorem fatal_never_filtered (conv : Int → Int) (level cur adjust : Int) (b : Bool) :
    (Logger.LFATAL ≤ Logger.setLogLevel level ∧ Logger.setLogLevel level ≤ Logger.LALL) ∧
    (Logger.LFATAL ≤ Logger.adjustLogLevel conv cur adjust ∧
      Logger.adjustLogLevel conv cur adjust ≤ Logger.LALL) ∧
    handy_hlog Logger.LFATAL (Logger.setLogLevel level) = [Logger.LFATAL] ∧
    handy_hlog Logger.LFATAL (Logger.adjustLogLevel conv cur adjust) = [Logger.LFATAL] ∧
    handy_fatal (Logger.setLogLevel level) = [Logger.LFATAL] ∧
    handy_fatal (Logger.adjustLogLevel conv cur adjust) = [Logger.LFATAL] ∧
    handy_fatalif b (Logger.setLogLevel level) = (if b then [Logger.LFATAL] else []) ∧
    handy_fatalif b (Logger.adjustLogLevel conv cur adjust)
      = (if b then [Logger.LFATAL] else []) ∧
    handy_check b (Logger.setLogLevel level) = (if b then [Logger.LFATAL] else []) ∧
    handy_check b (Logger.adjustLogLevel conv cur adjust)
      = (if b then [Logger.LFATAL] else []) := by
  have key : ∀ x : Int, Logger.LFATAL ≤ Logger.setLogLevel x ∧
      Logger.setLogLevel x ≤ Logger.LALL := by
    intro x
    simp only [Logger.setLogLevel, Logger.LFATAL, Logger.LALL]
    omega
  have hlog : ∀ x : Int, handy_hlog Logger.LFATAL (Logger.setLogLevel x) = [Logger.LFATAL] := by
    intro x
    simp only [handy_hlog, (key x).1, if_true]
  refine ⟨key level, key _, hlog level, hlog _, hlog level, hlog _, ?_, ?_, ?_, ?_⟩ <;>
    cases b <;>
    simp only [handy_fatalif, handy_check, Logger.adjustLogLevel, hlog, if_true,
      Bool.false_eq_true, if_false]

/-- C6. Benign interruption, both back ends (any selection chain `sel`): from any state
of a running process, a wait call that returns -1 with `EINTR` makes `loop_once` return
without a fatal diagnostic, without a callback, with the live set and every record of
the active buffer unchanged, exactly as a wait call that returns 0; after either, a
`removeChannel` clears no record.  A wait call that returns -1 with another error code
is fatal. -/
theorem benign_interruption {P : Type} (sel : (Chan → Interest) → P → Chan → Sel) (h : Handler P)
    (w : World P) (errno0 : Int) (hw : w.fatal = false) :
    (∃ w1, loop_once sel h ⟨-1, EINTR, []⟩ w = some w1 ∧ w1.fatal = false ∧
      w1.calls = w.calls ∧ w1.liveChannels = w.liveChannels ∧
      w1.activeEvs = w.activeEvs ∧
      ∀ ch, (removeChannel ch w1).activeEvs = w1.activeEvs) ∧
    (∃ w0, loop_once sel h ⟨0, errno0, []⟩ w = some w0 ∧ w0.fatal = false ∧
      w0.calls = w.calls ∧ w0.liveChannels = w.liveChannels ∧
      w0.activeEvs = w.activeEvs ∧
      ∀ ch, (removeChannel ch w0).activeEvs = w0.activeEvs) ∧
    (∀ e : Int, e ≠ EINTR →
      ∃ wf, loop_once sel h ⟨-1, e, []⟩ w = some wf ∧ wf.fatal = true ∧
        wf.calls = w.calls) := by
  refine ⟨?_, ?_, ?_⟩
  · refine ⟨{ w with lastActive := -2 }, ?_, hw, rfl, rfl, rfl, ?_⟩
    · simp [loop_once, writeBatch_nil, fatalIf, dispatchLoop, hw]
    · intro ch
      exact removeChannel_activeEvs_of_neg ch _ (by dsimp only; omega)
  · refine ⟨{ w with lastActive := -1 }, ?_, hw, rfl, rfl, rfl, ?_⟩
    · simp [loop_once, writeBatch_nil, fatalIf, dispatchLoop, hw]
    · intro ch
      exact removeChannel_activeEvs_of_neg ch _ (by dsimp only; omega)
  · intro e he
    refine ⟨{ w with lastActive := -1, fatal := true }, ?_, rfl, rfl⟩
    simp [loop_once, writeBatch_nil, fatalIf, dispatchLoop, he]

/-- An instance of C6: an interrupted wait on a poller with the live set {3} and a
buffer still holding a record of channel 3 returns with no callback invoked. -/
theorem benign_interruption_witness :
    ∃ w1, loop_once PollerEpoll.sel (fun _ _ _ => [Op.remove 3]) ⟨-1, EINTR, []⟩
        { fresh (fun _ => (⟨1, some 3⟩ : Ready Nat)) (fun _ => ⟨true, false⟩) with liveChannels := {3} } = some w1 ∧
      w1.fatal = false ∧ w1.calls = [] ∧ w1.liveChannels = {3} :=
  let ⟨w1, h1, h2, h3, h4, _, _⟩ :=
    (benign_interruption PollerEpoll.sel (fun _ _ _ => [Op.remove 3])
      { fresh (fun _ => (⟨1, some 3⟩ : Ready Nat)) (fun _ => ⟨true, false⟩) with liveChannels := {3} } 0 rfl).1
  ⟨w1, h1, h2, h3, h4⟩

/-- C2. Removal scenario, both back ends (any selection chain `sel`): in a batch in
which channel `B` has at most one record (so in particular when `A` and `B` have exactly
one record each, at distinct positions in either order), if the read callback of `A`
calls `removeChannel(B)`, then `loop_once` returns and no callback of `B` is invoked after
an invocation of the read callback of `A` in that batch; and when that callback was
invoked, no callback re-adds `B` and the process was not terminated by a fatal
diagnostic, `B` is not in the live set when `loop_once` returns. -/
theorem removal_scenario {P : Type} (sel : (Chan → Interest) → P → Chan → Sel) (h : Handler P)
    (wr : WaitResult P) (w : World P) (A B : Chan)
    (hret : wr.ret ≤ (wr.evs.length : Int))
    (hB : ∀ i j : Fin wr.evs.length,
      (wr.evs.get i).ptr = some B → (wr.evs.get j).ptr = some B → i = j)
    (hrm : ∀ w0, Op.remove B ∈ h w0 A .read) :
    ∃ w1 new, loop_once sel h wr w = some w1 ∧ w1.calls = w.calls ++ new ∧
      (∀ pre post, new = pre ++ Call.handleRead A :: post →
        Call.handleRead B ∉ post ∧ Call.handleWrite B ∉ post) ∧
      ((∀ w0 c k r, Op.add B r ∉ h w0 c k) → w1.fatal = false →
        Call.handleRead A ∈ new → B ∉ w1.liveChannels) := by
  obtain ⟨w1, hrun⟩ := loop_once_total sel h wr w
  have hrun2 := hrun
  unfold loop_once at hrun2
  generalize hb : decide (wr.ret = -1 ∧ wr.errno ≠ EINTR) = bf at hrun2
  have hfields : (fatalIf bf
        { w with activeEvs := writeBatch wr.evs w.activeEvs, lastActive := wr.ret }).activeEvs
        = writeBatch wr.evs w.activeEvs ∧
      (fatalIf bf
        { w with activeEvs := writeBatch wr.evs w.activeEvs, lastActive := wr.ret }).lastActive
        = wr.ret ∧
      (fatalIf bf
        { w with activeEvs := writeBatch wr.evs w.activeEvs, lastActive := wr.ret }).calls
        = w.calls := by
    cases bf <;> exact ⟨rfl, rfl, rfl⟩
  obtain ⟨hfa, hfl, hfc⟩ := hfields
  have huniq : ∀ a b : Nat,
      (a : Int) < (fatalIf bf
        { w with activeEvs := writeBatch wr.evs w.activeEvs, lastActive := wr.ret }).lastActive →
      (b : Int) < (fatalIf bf
        { w with activeEvs := writeBatch wr.evs w.activeEvs, lastActive := wr.ret }).lastActive →
      ((fatalIf bf
        { w with activeEvs := writeBatch wr.evs w.activeEvs, lastActive := wr.ret }).activeEvs
          a).ptr = some B →
      ((fatalIf bf
        { w with activeEvs := writeBatch wr.evs w.activeEvs, lastActive := wr.ret }).activeEvs
          b).ptr = some B → a = b := by
    intro a c ha hc h1 h2
    rw [hfl] at ha hc
    rw [hfa] at h1 h2
    have ha1 : a < wr.evs.length := by omega
    have hc1 : c < wr.evs.length := by omega
    rw [writeBatch_lt wr.evs w.activeEvs a ha1] at h1
    rw [writeBatch_lt wr.evs w.activeEvs c hc1] at h2
    exact congrArg Fin.val (hB ⟨a, ha1⟩ ⟨c, hc1⟩ h1 h2)
  obtain ⟨cs, hcs, hsplit⟩ := dispatchLoop_after_remove sel h A B hrm _ _ w1 hrun2 huniq
  rw [hfc] at hcs
  refine ⟨w1, cs, hrun, hcs, hsplit, ?_⟩
  intro hadd hf1 hmem
  obtain ⟨cs2, hcs2, hlive⟩ := dispatchLoop_live sel h A B hrm hadd _ _ w1 hrun2
  rw [hfc] at hcs2
  have hcseq : cs2 = cs := List.append_cancel_left (hcs2.symm.trans hcs)
  rw [hcseq] at hlive
  exact hlive hf1 (Or.inr hmem)

/-- An instance of C2 on epoll: channel 2 is reported at position 0 and channel 1 at
position 1 (dispatched first); the read callback of channel 1 removes channel 2.  Only
the read callback of channel 1 runs, and channel 2 has left the live set. -/
theorem removal_scenario_witness :
    (∃ w1 new,
      loop_once PollerEpoll.sel
        (fun _ ch k => if ch = 1 ∧ k = Kind.read then [Op.remove 2] else [])
        ⟨2, 0, [⟨1, some 2⟩, ⟨1, some 1⟩]⟩
        { fresh (fun _ => ⟨0, none⟩) (fun _ => ⟨true, false⟩) with liveChannels := {1, 2} } = some w1 ∧
      w1.calls = [] ++ new ∧
      (∀ pre post, new = pre ++ Call.handleRead 1 :: post →
        Call.handleRead 2 ∉ post ∧ Call.handleWrite 2 ∉ post) ∧
      ((∀ (_ : World Nat) (c : Chan) (k : Kind) (r : Int),
          Op.add 2 r ∉ (if c = 1 ∧ k = Kind.read then [Op.remove 2] else [])) →
        w1.fatal = false → Call.handleRead 1 ∈ new → 2 ∉ w1.liveChannels)) ∧
    (loop_once PollerEpoll.sel
        (fun _ ch k => if ch = 1 ∧ k = Kind.read then [Op.remove 2] else [])
        ⟨2, 0, [⟨1, some 2⟩, ⟨1, some 1⟩]⟩
        { fresh (fun _ => ⟨0, none⟩) (fun _ => ⟨true, false⟩) with liveChannels := {1, 2} }).map
      (fun w1 => (w1.calls, w1.liveChannels, w1.fatal))
      = some ([Call.handleRead 1], {1}, false) :=
  ⟨removal_scenario PollerEpoll.sel
      (fun _ ch k => if ch = 1 ∧ k = Kind.read then [Op.remove 2] else [])
      ⟨2, 0, [⟨1, some 2⟩, ⟨1, some 1⟩]⟩
      { fresh (fun _ => ⟨0, none⟩) (fun _ => ⟨true, false⟩) with liveChannels := {1, 2} } 1 2
      (by decide) (by decide) (fun _ => List.mem_singleton.2 rfl),
   by decide⟩

/-- C1 at a failing input, kqueue: channel 1 has read and write interest enabled and the
wait call returns one record for each of its two filters (positions 0 and 1).  The
callback invoked for the record at position 1 closes the channel, so
`removeChannel(1)` runs with the cursor at 1: the scan clears the record at position 1
and stops, the record at position 0 still points to the removed channel, and
`loop_once` invokes a callback of channel 1 a second time. -/
theorem removal_stops_at_first_match :
    ((dispatch PollerKqueue.sel
        (fun _ ch _ => if ch = 1 then [Op.remove 1] else [])
        { fresh (writeBatch [⟨0, some 1⟩, ⟨0, some 1⟩] (fun _ => ⟨0, none⟩))
            (fun _ => ⟨true, true⟩) with
          liveChannels := {1}, lastActive := 1 }).activeEvs 0).ptr = some 1 ∧
    (dispatch PollerKqueue.sel
        (fun _ ch _ => if ch = 1 then [Op.remove 1] else [])
        { fresh (writeBatch [⟨0, some 1⟩, ⟨0, some 1⟩] (fun _ => ⟨0, none⟩))
            (fun _ => ⟨true, true⟩) with
          liveChannels := {1}, lastActive := 1 }).liveChannels = ∅ ∧
    (PollerKqueue.loop_once
        (fun _ ch _ => if ch = 1 then [Op.remove 1] else [])
        ⟨2, 0, [⟨0, some 1⟩, ⟨0, some 1⟩]⟩
        { fresh (fun _ => ⟨0, none⟩) (fun _ => ⟨true, true⟩) with liveChannels := {1} }).map
      (fun w1 => (w1.calls, w1.fatal))
      = some ([Call.handleWrite 1, Call.handleWrite 1], false) := by
  decide

/-- C9. Cursor bound, both back ends (any selection chain `sel`): starting from a fresh
poller (cursor -1), for every sequence of calls of the poller's interface in which every
wait call returns a value in `[-1, kMaxEvents]`, and whatever the callbacks do, the
sequence runs to its end; every `removeChannel`, called by the owner between `loop_once`
calls or from inside a callback, found the cursor in `[-2, kMaxEvents - 1]`; and between
`loop_once` calls of a running process the cursor is negative, so that the scan of
`removeChannel` touches no record. -/
theorem cursor_bound {P : Type} (sel : (Chan → Interest) → P → Chan → Sel)
    (kMaxEvents : Nat) (buf : Nat → Ready P) (chans : Chan → Interest)
    (cmds : List (Cmd P))
    (hwait : ∀ h wr, Cmd.loop h wr ∈ cmds → -1 ≤ wr.ret ∧ wr.ret ≤ (kMaxEvents : Int)) :
    ∃ w1, run sel cmds (fresh buf chans) = some w1 ∧
      (∀ c ∈ w1.scans, -2 ≤ c ∧ c ≤ (kMaxEvents : Int) - 1) ∧
      (w1.fatal = false →
        -2 ≤ w1.lastActive ∧ w1.lastActive < 0 ∧
        ∀ ch, (removeChannel ch w1).activeEvs = w1.activeEvs) := by
  obtain ⟨w1, hrun, hs, hl⟩ := run_cursor sel kMaxEvents cmds (fresh buf chans) hwait
    (by intro c hc; cases hc)
    (by intro _; show -2 ≤ (-1 : Int) ∧ (-1 : Int) < 0; omega)
  refine ⟨w1, hrun, hs, ?_⟩
  intro hf
  exact ⟨(hl hf).1, (hl hf).2, fun ch => removeChannel_activeEvs_of_neg ch w1 (hl hf).2⟩

/-- An instance of C9 on epoll with a buffer of 2000 records: two channels are added, a
wait call reports both, the callback of channel 2 removes channel 1, then the owner
removes channel 2 and an interrupted wait call follows. -/
theorem cursor_bound_witness :
    ∃ w1, run PollerEpoll.sel
        [Cmd.add 1 0, Cmd.add 2 0,
         Cmd.loop (fun _ ch _ => if ch = 2 then [Op.remove 1] else [])
           ⟨2, 0, [⟨1, some 1⟩, ⟨1, some 2⟩]⟩,
         Cmd.remove 2,
         Cmd.loop (fun _ _ _ => []) ⟨-1, EINTR, []⟩]
        (fresh (fun _ => ⟨0, none⟩) (fun _ => ⟨true, false⟩)) = some w1 ∧
      (∀ c ∈ w1.scans, -2 ≤ c ∧ c ≤ ((2000 : Nat) : Int) - 1) ∧
      (w1.fatal = false →
        -2 ≤ w1.lastActive ∧ w1.lastActive < 0 ∧
        ∀ ch, (removeChannel ch w1).activeEvs = w1.activeEvs) :=
  cursor_bound PollerEpoll.sel 2000 (fun _ => ⟨0, none⟩) (fun _ => ⟨true, false⟩)
    [Cmd.add 1 0, Cmd.add 2 0,
     Cmd.loop (fun _ ch _ => if ch = 2 then [Op.remove 1] else [])
       ⟨2, 0, [⟨1, some 1⟩, ⟨1, some 2⟩]⟩,
     Cmd.remove 2,
     Cmd.loop (fun _ _ _ => []) ⟨-1, EINTR, []⟩]
    (by
      intro h wr hm
      simp only [List.mem_cons, List.mem_singleton, List.not_mem_nil, or_false,
        Cmd.loop.injEq, false_or, reduceCtorEq] at hm
      rcases hm with ⟨_, rfl⟩ | ⟨_, rfl⟩
      · exact ⟨by decide, by decide⟩
      · exact ⟨by decide, by decide⟩)

/-- C7. Teardown, both back ends: when `close()` of a channel has the effect of
`removeChannel` on that channel and no other effect on the poller, the loop of the
destructor, run on a poller whose live set holds `N` channels, terminates (any fuel above
`N` gives a result), has invoked `close()` exactly once on each of the `N` channels and on
nothing else (`N` calls), and the live set is empty in the state in which the
multiplexing handle is released. -/
theorem teardown {P : Type} (close : Chan → World P → World P) (w : World P) (fuel : Nat)
    (hclose : ∀ ch w0, close ch w0 = removeChannel ch w0)
    (hw : w.fatal = false) (hfuel : w.liveChannels.card < fuel) :
    ∃ (w1 : World _) (cs : List Chan), destroyLoop close fuel w = some w1 ∧ w1.liveChannels = ∅ ∧
      w1.calls = w.calls ++ cs.map Call.close ∧ cs.Nodup ∧
      cs.length = w.liveChannels.card ∧ ∀ ch, ch ∈ cs ↔ ch ∈ w.liveChannels :=
  destroyLoop_closes close hclose w.liveChannels.card fuel w hw rfl hfuel

/-- An instance of C7: a poller with the live set {1, 3, 5}. -/
theorem teardown_witness :
    (∃ (w1 : World _) (cs : List Chan), destroyLoop removeChannel 4
        { fresh (fun _ => (⟨0, none⟩ : Ready Nat)) (fun _ => ⟨true, false⟩) with liveChannels := {1, 3, 5} } = some w1 ∧
      w1.liveChannels = ∅ ∧ w1.calls = [] ++ cs.map Call.close ∧ cs.Nodup ∧
      cs.length = ({1, 3, 5} : Finset Chan).card ∧
      ∀ ch, ch ∈ cs ↔ ch ∈ ({1, 3, 5} : Finset Chan)) ∧
    (destroyLoop removeChannel 4
        { fresh (fun _ => (⟨0, none⟩ : Ready Nat)) (fun _ => ⟨true, false⟩) with liveChannels := {1, 3, 5} }).map
      (fun w1 => w1.calls) = some [Call.close 1, Call.close 3, Call.close 5] :=
  ⟨teardown removeChannel
      { fresh (fun _ => (⟨0, none⟩ : Ready Nat)) (fun _ => ⟨true, false⟩) with liveChannels := {1, 3, 5} } 4
      (fun _ _ => rfl) rfl (by decide),
   by decide⟩

/-- C5 as stated fails: on the epoll back end, after `addChannel` and then
`removeChannel` of channel 1 (descriptor 1), both successful, the descriptor is still
registered while the live set is empty; on the kqueue back end, after a successful
`addChannel` of a channel with neither interest enabled, the channel is in the live set
and nothing is registered. -/
theorem registration_not_withdrawn :
    ((PollerEpoll.runReg (fun c : Chan => (c : Int)) [.add 1 true false, .remove 1]
        (PollerEpoll.init (fun _ => ⟨0, none⟩) (fun _ => ⟨true, false⟩))).poller.fatal = false ∧
     (PollerEpoll.runReg (fun c : Chan => (c : Int)) [.add 1 true false, .remove 1]
        (PollerEpoll.init (fun _ => ⟨0, none⟩) (fun _ => ⟨true, false⟩))).reg = {1} ∧
     (PollerEpoll.runReg (fun c : Chan => (c : Int)) [.add 1 true false, .remove 1]
        (PollerEpoll.init (fun _ => ⟨0, none⟩) (fun _ => ⟨true, false⟩))).poller.liveChannels = ∅ ∧
     (PollerEpoll.runReg (fun c : Chan => (c : Int)) [.add 1 true false, .remove 1]
        (PollerEpoll.init (fun _ => ⟨0, none⟩) (fun _ => ⟨true, false⟩))).reg ≠
      (PollerEpoll.runReg (fun c : Chan => (c : Int)) [.add 1 true false, .remove 1]
        (PollerEpoll.init (fun _ => ⟨0, none⟩) (fun _ => ⟨true, false⟩))).poller.liveChannels.image
          (fun c : Chan => (c : Int))) ∧
    ((PollerKqueue.runReg (fun c : Chan => (c : Int)) [.add 1 false false]
        (PollerKqueue.init (fun _ => ⟨0, none⟩) (fun _ => ⟨true, false⟩))).poller.fatal = false ∧
     (PollerKqueue.runReg (fun c : Chan => (c : Int)) [.add 1 false false]
        (PollerKqueue.init (fun _ => ⟨0, none⟩) (fun _ => ⟨true, false⟩))).reg.image Prod.fst ≠
      (PollerKqueue.runReg (fun c : Chan => (c : Int)) [.add 1 false false]
        (PollerKqueue.init (fun _ => ⟨0, none⟩) (fun _ => ⟨true, false⟩))).poller.liveChannels.image
          (fun c : Chan => (c : Int))) := by
  decide

/-- C5 as amended.  From a fresh poller, after every sequence of successful calls:
on epoll every descriptor of a live channel is registered and, when the sequence has no
`removeChannel`, the registered descriptors are exactly those of the live channels; on
kqueue the same equality holds when the sequence has no `removeChannel`, every
`updateChannel` is on a live channel and every `addChannel` / `updateChannel` is made
with read or write interest enabled.  On both back ends `removeChannel` takes the channel
out of the live set and leaves the registration table as it is.  The statement is about
the state after the last call of an arbitrary sequence, hence about the state after
every call. -/
theorem registration_follows_requests (fdOf : Chan → Int) (buf : Nat → Ready Nat)
    (chans : Chan → Interest) (cmds : List RegCmd) :
    ((PollerEpoll.runReg fdOf cmds (PollerEpoll.init buf chans)).poller.fatal = false →
      (∀ ch ∈ (PollerEpoll.runReg fdOf cmds (PollerEpoll.init buf chans)).poller.liveChannels,
        fdOf ch ∈ (PollerEpoll.runReg fdOf cmds (PollerEpoll.init buf chans)).reg) ∧
      ((∀ c ∈ cmds, c.keeps = true) →
        (PollerEpoll.runReg fdOf cmds (PollerEpoll.init buf chans)).reg =
          (PollerEpoll.runReg fdOf cmds (PollerEpoll.init buf chans)).poller.liveChannels.image
            fdOf)) ∧
    ((PollerKqueue.runReg fdOf cmds (PollerKqueue.init buf chans)).poller.fatal = false →
      (∀ c ∈ cmds, c.keeps = true ∧ c.interested = true) →
      updatesLive ∅ cmds = true →
      (PollerKqueue.runReg fdOf cmds (PollerKqueue.init buf chans)).reg.image Prod.fst =
        (PollerKqueue.runReg fdOf cmds (PollerKqueue.init buf chans)).poller.liveChannels.image
          fdOf) ∧
    (∀ ch s, (PollerEpoll.removeChannelSys ch s).reg = s.reg ∧
      (PollerEpoll.removeChannelSys ch s).poller.liveChannels
        = s.poller.liveChannels.erase ch) ∧
    (∀ ch s, (PollerKqueue.removeChannelSys ch s).reg = s.reg ∧
      (PollerKqueue.removeChannelSys ch s).poller.liveChannels
        = s.poller.liveChannels.erase ch) := by
  refine ⟨?_, ?_, fun _ _ => ⟨rfl, rfl⟩, fun _ _ => ⟨rfl, rfl⟩⟩
  · intro hnf
    obtain ⟨h1, h2⟩ := PollerEpoll.runReg_inv fdOf cmds (PollerEpoll.init buf chans) hnf
    refine ⟨h1 ?_, fun hk => h2 hk ?_⟩
    · intro ch hch
      simp [PollerEpoll.init, fresh] at hch
    · simp [PollerEpoll.init, fresh]
  · intro hnf hc hu
    obtain ⟨ha, hb⟩ := PollerKqueue.runReg_inv_kq fdOf cmds (PollerKqueue.init buf chans) hc hu hnf
      (by intro p hp; simp [PollerKqueue.init] at hp)
      (by intro ch hch; simp [PollerKqueue.init, fresh] at hch)
    ext fd
    simp only [Finset.mem_image]
    constructor
    · rintro ⟨p, hp, rfl⟩
      obtain ⟨ch, hch, hfd⟩ := ha p hp
      exact ⟨ch, hch, hfd⟩
    · rintro ⟨ch, hch, rfl⟩
      obtain ⟨f, hf⟩ := hb ch hch
      exact ⟨(fdOf ch, f), hf, rfl⟩

/-- An instance of amended C5: channels 1 and 2 (descriptors 11 and 12) are added and
channel 1 is updated; on both back ends the registered descriptors are those of the live
channels. -/
theorem registration_follows_requests_witness :
    (PollerEpoll.runReg (fun c : Chan => (c : Int) + 10)
        [.add 1 true false, .add 2 true true, .update 1 true true]
        (PollerEpoll.init (fun _ => ⟨0, none⟩) (fun _ => ⟨true, false⟩))).reg =
      (PollerEpoll.runReg (fun c : Chan => (c : Int) + 10)
        [.add 1 true false, .add 2 true true, .update 1 true true]
        (PollerEpoll.init (fun _ => ⟨0, none⟩) (fun _ => ⟨true, false⟩))).poller.liveChannels.image
          (fun c : Chan => (c : Int) + 10) ∧
    (PollerKqueue.runReg (fun c : Chan => (c : Int) + 10)
        [.add 1 true false, .add 2 true true, .update 1 true true]
        (PollerKqueue.init (fun _ => ⟨0, none⟩) (fun _ => ⟨true, false⟩))).reg.image Prod.fst =
      (PollerKqueue.runReg (fun c : Chan => (c : Int) + 10)
        [.add 1 true false, .add 2 true true, .update 1 true true]
        (PollerKqueue.init (fun _ => ⟨0, none⟩) (fun _ => ⟨true, false⟩))).poller.liveChannels.image
          (fun c : Chan => (c : Int) + 10) :=
  ⟨((registration_follows_requests (fun c : Chan => (c : Int) + 10) (fun _ => ⟨0, none⟩)
      (fun _ => ⟨true, false⟩)
      [.add 1 true false, .add 2 true true, .update 1 true true]).1 (by decide)).2
      (by decide),
   (registration_follows_requests (fun c : Chan => (c : Int) + 10) (fun _ => ⟨0, none⟩)
      (fun _ => ⟨true, false⟩)
      [.add 1 true false, .add 2 true true, .update 1 true true]).2.1 (by decide)
      (by decide) (by decide)⟩

end handy
